import Mathlib

/-!
# Verification of the tiny_id short-code generator

A shallow embedding of the `tiny_id` crate (`src/lib.rs`) together with a
model of its `lcm` module (`src/lcm.rs`, declared by `mod lcm` but not present
in the sources; it is modelled from the specification, §3/§4.1).

Machine integers (`u64` in the source) are modelled as `Nat`; the spec's
failure-semantics section (§4.1) states that the design assumes integer widths
with enough headroom, so arithmetic is idealized.  Fallible operations
(`panic!` in the source) are modelled with `Option`, `none` meaning the call
fails.  The `println!` side effect inside `next_int` is modelled by returning
the list of printed lines alongside the result.
-/

namespace TinyId

/-- Trial division: ascending prime factors of `n`, with multiplicity,
starting at candidate divisor `d`.  Fuel-based structural recursion so that
the kernel can evaluate it; `2 * n ≤ fuel + d` is always enough fuel. -/
def factorFrom : Nat → Nat → Nat → List Nat
  | 0, _, _ => []
  | fuel+1, n, d =>
    if n ≤ 1 then []
    else if n % d == 0 then d :: factorFrom fuel (n / d) d
    else factorFrom fuel n (d + 1)

/-- Modelled from the spec: `src/lcm.rs` is not among the sources.  Spec §4.1:
"factor `m_base` into its ascending prime factors". -/
def primeFactorsAsc (n : Nat) : List Nat :=
  factorFrom (2 * n) n 2

/-- Modelled from the spec: `generate_a` of the missing `src/lcm.rs`.
Spec §4.1: "the product of distinct prime factors, call it `k`; if `m_base`
is even, double `k`; the multiplier is `a = k + 1`". -/
def generate_a (m_base : Nat) : Nat :=
  let k := (primeFactorsAsc m_base).dedup.prod
  let k2 := if m_base % 2 == 0 then 2 * k else k
  k2 + 1

def geomS (a : Nat) : Nat → Nat
  | 0 => 0
  | n+1 => a * geomS a n + 1

/-- Triangular numbers `0 + 1 + ... + (n-1)`. -/
def tri : Nat → Nat
  | 0 => 0
  | n+1 => tri n + n


/-- One step of the recurrence of spec §4.1 with `c = 1`:
`current ↦ (a * current + 1) mod m`. -/
def lcgStep (a m x : Nat) : Nat := (a * x + 1) % m

/-- The LCG orbit: the value of `current` after `n` steps from `seed`. -/
def lcgIterate (a m seed n : Nat) : Nat := (lcgStep a m)^[n] seed

/-- The Hull-Dobell hypotheses of spec §4.1, relating the modulus `m` to
`k = a - 1`: every prime of `m` divides `k`, and `4 ∣ k` when `m` is even. -/
structure FullPeriod (m k : Nat) : Prop where
  pos : 0 < m
  primes : ∀ p, p.Prime → p ∣ m → p ∣ k
  four : 2 ∣ m → 4 ∣ k


/-- Modelled from the spec: the full-period integer generator state of the
missing `src/lcm.rs` (spec §3).  The spec calls the mutable value `current`;
`m`, `a`, `c` are the modulus, multiplier and increment. -/
structure LinearCongruentMultiplier where
  first : Nat
  current : Nat
  m : Nat
  c : Nat
  a : Nat
  exhausted : Bool
deriving Repr, DecidableEq

/-- Modelled from the spec (§4.1): "`new(seed, m, c, a)` constructs with
explicit parameters; no validation is performed here". -/
def LinearCongruentMultiplier.new (seed m c a : Nat) : LinearCongruentMultiplier :=
  { first := seed, current := seed, m := m, c := c, a := a, exhausted := false }

/-- Modelled from the spec (§4.1): "`next()` returns `current`, then updates
`current = (a * current + c) mod m`; if the new `current` equals `first`,
sets `exhausted = true`.  Returns the pre-update value."  The flag is only
ever set, never cleared (spec §3: "true once `current` has cycled back"). -/
def LinearCongruentMultiplier.next (l : LinearCongruentMultiplier) :
    Nat × LinearCongruentMultiplier :=
  let result := l.current
  let newCurrent := (l.a * l.current + l.c) % l.m
  (result,
    { l with
      current := newCurrent
      exhausted := l.exhausted || (newCurrent == l.first) })

/-- Discard the returned value of `LinearCongruentMultiplier.next`, keeping
the advanced state. -/
def LinearCongruentMultiplier.advance (l : LinearCongruentMultiplier) :
    LinearCongruentMultiplier :=
  (l.next).2

/-- The state of the integer generator after `n` calls to `next()`. -/
def lcmIter (l : LinearCongruentMultiplier) (n : Nat) : LinearCongruentMultiplier :=
  (LinearCongruentMultiplier.advance)^[n] l

/-- `ExhaustionStrategy` from `src/lib.rs`. -/
inductive ExhaustionStrategy where
  | Cycle
  | IncreaseLength
  | Panic
deriving Repr, DecidableEq

/-- `Default for ExhaustionStrategy` from `src/lib.rs`: `IncreaseLength`. -/
instance : Inhabited ExhaustionStrategy := ⟨ExhaustionStrategy.IncreaseLength⟩

/-- Modelled from the spec: the entropy provider (`ChaCha12Rng`, an external
crate; spec §6 treats it as an opaque capability producing uniform integers
in `[0, upper_bound)`).  Modelled as a stream of draws. -/
structure ChaCha12Rng where
  stream : List Nat
deriving Repr, DecidableEq

/-- Modelled from the spec (§6): "produce a uniform integer in
`[0, upper_bound)`"; consumes one element of the stream. -/
def ChaCha12Rng.gen_range (rng : ChaCha12Rng) (bound : Nat) : Nat × ChaCha12Rng :=
  (rng.stream.headD 0 % bound, ⟨rng.stream.tail⟩)

/-- `ShortCodeGenerator` from `src/lib.rs`, field for field. -/
structure ShortCodeGenerator (T : Type) where
  lcm : LinearCongruentMultiplier
  offset : Nat
  alphabet : List T
  length : Nat
  exhaustion_strategy : ExhaustionStrategy
  rng : Option ChaCha12Rng
  skip : Option Nat
  skip_before_next : Bool
deriving Repr, DecidableEq

namespace ShortCodeGenerator

variable {T : Type}

/-- `ShortCodeGenerator::with_alphabet_and_rng` from `src/lib.rs`:
`m = m_base ^ length`, `a = generate_a m_base`, then two draws from the rng
give the lcm seed and the offset. -/
def with_alphabet_and_rng (alphabet : List T) (length : Nat) (rng : ChaCha12Rng) :
    ShortCodeGenerator T :=
  let m_base := alphabet.length
  let m := m_base ^ length
  let a := generate_a m_base
  let r1 := rng.gen_range m
  let lcm_seed := r1.1
  let r2 := r1.2.gen_range m
  let offset := r2.1
  { alphabet := alphabet
    lcm := LinearCongruentMultiplier.new lcm_seed m 1 a
    offset := offset
    length := length
    exhaustion_strategy := default
    rng := some r2.2
    skip := none
    skip_before_next := false }

/-- `ShortCodeGenerator::step` from `src/lib.rs`.  On exhaustion, `Cycle`
does nothing, `Panic` fails (modelled as `none`), `IncreaseLength` rebuilds
the generator with `length + 1` (preserving `skip` and `skip_before_next`);
then the result of `lcm.next()` is returned.  The crate configuration
without the `getrandom` feature is modelled: a missing stored rng makes
`IncreaseLength` fail. -/
def step (g : ShortCodeGenerator T) : Option (Nat × ShortCodeGenerator T) :=
  let handled : Option (ShortCodeGenerator T) :=
    if g.lcm.exhausted then
      match g.exhaustion_strategy with
      | ExhaustionStrategy.Cycle => some g
      | ExhaustionStrategy.Panic => none
      | ExhaustionStrategy.IncreaseLength =>
        match g.rng with
        | some rng =>
          let rebuilt := with_alphabet_and_rng g.alphabet (g.length + 1) rng
          some { rebuilt with skip := g.skip, skip_before_next := g.skip_before_next }
        | none => none
    else some g
  handled.map fun g' => ((g'.lcm.next).1, { g' with lcm := (g'.lcm.next).2 })

/-- The skip loop at the start of `ShortCodeGenerator::next_int`
(`src/lib.rs` lines 186-190): each iteration prints `"h0"` and discards one
`step` value.  The printed lines are collected in the second component. -/
def skipLoop : Nat → ShortCodeGenerator T → Option (ShortCodeGenerator T × List String)
  | 0, g => some (g, [])
  | n+1, g =>
    match g.step with
    | none => none
    | some r =>
      match skipLoop n r.2 with
      | none => none
      | some gout => some (gout.1, "h0" :: gout.2)

/-- The pre-step phase of `ShortCodeGenerator::next_int`: run the skip loop
when `skip_before_next` is set, otherwise set it. -/
def nextIntPre (g : ShortCodeGenerator T) : Option (ShortCodeGenerator T × List String) :=
  if g.skip_before_next then
    skipLoop (g.skip.getD 0) g
  else
    some ({ g with skip_before_next := true }, [])

/-- `ShortCodeGenerator::next_int` from `src/lib.rs`: skip phase, one `step`,
then `(result + self.offset) % self.lcm.m` on the post-step state.  The
third component collects the lines printed by the skip loop. -/
def next_int (g : ShortCodeGenerator T) :
    Option (Nat × ShortCodeGenerator T × List String) :=
  match g.nextIntPre with
  | none => none
  | some (g1, out) =>
    match g1.step with
    | none => none
    | some (result, g2) => some ((result + g2.offset) % g2.lcm.m, g2, out)

/-- The digit loop of `ShortCodeGenerator::next_vec`: push
`alphabet[value % alphabet_size]` and divide, `len` times (least-significant
digit first). -/
def toDigitsWith [Inhabited T] (alphabet : List T) (alphabet_size : Nat) :
    Nat → Nat → List T
  | 0, _ => []
  | len+1, value =>
    alphabet.getD (value % alphabet_size) default ::
      toDigitsWith alphabet alphabet_size len (value / alphabet_size)

/-- `ShortCodeGenerator::next_vec` from `src/lib.rs`: `alphabet_size` is read
before the `next_int` call, the loop bound `self.length` and `self.alphabet`
after it (this matters when `next_int` rebuilt the generator). -/
def next_vec [Inhabited T] (g : ShortCodeGenerator T) :
    Option (List T × ShortCodeGenerator T × List String) :=
  let alphabet_size := g.alphabet.length
  match g.next_int with
  | none => none
  | some (value, g', out) =>
    some (toDigitsWith g'.alphabet alphabet_size g'.length value, g', out)

/-- `ShortCodeGenerator::next_string` from `src/lib.rs`: collect the
characters of `next_vec` into a string. -/
def next_string (g : ShortCodeGenerator Char) :
    Option (String × ShortCodeGenerator Char × List String) :=
  match g.next_vec with
  | none => none
  | some (w, g', out) => some (String.mk w, g', out)

/-- `offset` iterated `next_int` calls used by `into_parallel_generators`
to phase-offset a clone. -/
def advanceBy : Nat → ShortCodeGenerator T → Option (ShortCodeGenerator T)
  | 0, g => some g
  | n+1, g =>
    match g.next_int with
    | none => none
    | some r => advanceBy n r.2.1

/-- `ShortCodeGenerator::into_parallel_generators` from `src/lib.rs`: for
each index, clone, fail if the source is already partitioned (modelled as
`none`), advance the clone `index` steps, then set `skip_before_next := false`
and `skip := some (generators - 1)`. -/
def into_parallel_generators (g : ShortCodeGenerator T) (generators : Nat) :
    Option (List (ShortCodeGenerator T)) :=
  (List.range generators).mapM fun offset =>
    if g.skip.isSome then none
    else (advanceBy offset g).map fun g1 =>
      { g1 with skip_before_next := false, skip := some (generators - 1) }

/-- `ShortCodeGenerator::exhaustion_strategy` (builder) from `src/lib.rs`:
sets the policy, preserving all other state.  Named `set_exhaustion_strategy`
here because the field accessor already carries the Rust name. -/
def set_exhaustion_strategy (g : ShortCodeGenerator T) (strategy : ExhaustionStrategy) :
    ShortCodeGenerator T :=
  { g with exhaustion_strategy := strategy }

/-- The value whose digit decomposition is the word `w` (least-significant
symbol first); inverse of `toDigitsWith` on valid words. -/
def encodeWord [DecidableEq T] (alphabet : List T) : List T → Nat
  | [] => 0
  | c :: w => alphabet.indexOf c + alphabet.length * encodeWord alphabet w


/-- The generator state after `n` calls to `next_vec` (`none` once a call
has failed). -/
def iterVec [Inhabited T] : Nat → ShortCodeGenerator T → Option (ShortCodeGenerator T)
  | 0, g => some g
  | n+1, g =>
    match g.next_vec with
    | none => none
    | some r => iterVec n r.2.1

/-- The code returned by the `(n+1)`-st call to `next_vec` (0-based call
index `n`), or `none` if some call up to it fails. -/
def vecOutAt [Inhabited T] (g : ShortCodeGenerator T) (n : Nat) : Option (List T) :=
  match iterVec n g with
  | none => none
  | some g' => (g'.next_vec).map (fun r => r.1)

/-! ## Running a Cycle-strategy generator -/


/-- Invariant for a running `Cycle`-strategy generator: after `n` calls the
state agrees with the pure LCG orbit `lcgIterate a m seed n` and all the
configuration fields are unchanged. -/
structure IsCycleState (alphabet : List T) (L off m a seed n : Nat)
    (g : ShortCodeGenerator T) : Prop where
  alph : g.alphabet = alphabet
  len : g.length = L
  off_eq : g.offset = off
  strat : g.exhaustion_strategy = ExhaustionStrategy.Cycle
  skip_eq : g.skip = none
  m_eq : g.lcm.m = m
  a_eq : g.lcm.a = a
  c_eq : g.lcm.c = 1
  cur : g.lcm.current = lcgIterate a m seed n

/-- Invariant for a running generator of any strategy that has not yet hit
exhaustion handling: tracks every configuration field, the LCG orbit
position and the exact exhaustion flag. -/
structure IsRun (alphabet : List T) (L off m a seed : Nat)
    (strat : ExhaustionStrategy) (rngv : Option ChaCha12Rng) (n : Nat)
    (g : ShortCodeGenerator T) : Prop where
  alph : g.alphabet = alphabet
  len : g.length = L
  off_eq : g.offset = off
  strat_eq : g.exhaustion_strategy = strat
  skip_eq : g.skip = none
  rng_eq : g.rng = rngv
  first_eq : g.lcm.first = seed
  m_eq : g.lcm.m = m
  a_eq : g.lcm.a = a
  c_eq : g.lcm.c = 1
  cur : g.lcm.current = lcgIterate a m seed n
  exh : g.lcm.exhausted = decide (m ≤ n)

/-- The generator state after `n` raw `step` calls (`none` once one fails). -/
def stepIter : Nat → ShortCodeGenerator T → Option (ShortCodeGenerator T)
  | 0, g => some g
  | n+1, g =>
    match g.step with
    | none => none
    | some r => stepIter n r.2

/-- Forget the partition configuration of a generator. -/
def eraseP (g : ShortCodeGenerator T) : ShortCodeGenerator T :=
  { g with skip := none, skip_before_next := false }

/-- The code determined by stream position `t` of the partition-free run of
`g`: the digit decomposition of `(value + offset) % m` for the `step` value
at position `t`.  Both an unpartitioned generator and any partition of it
produce their codes from this one stream. -/
def coreVec [Inhabited T] (g : ShortCodeGenerator T) (t : Nat) : Option (List T) :=
  (stepIter t (eraseP g)).bind fun h =>
    (h.step).map fun r =>
      toDigitsWith r.2.alphabet h.alphabet.length r.2.length
        ((r.1 + r.2.offset) % r.2.lcm.m)

end ShortCodeGenerator

/-! ## Correctness of the trial-division factorization -/

theorem factorFrom_prime_prod :
    ∀ (fuel n d : Nat), 2 ≤ d →
      (∀ e, 2 ≤ e → e < d → ¬ e ∣ n) → 2 * n ≤ fuel + d →
      (∀ p ∈ factorFrom fuel n d, Nat.Prime p) ∧
        (1 ≤ n → (factorFrom fuel n d).prod = n) := by
  intro fuel
  induction fuel with
  | zero =>
    intro n d hd hnd hfuel
    refine ⟨by simp [factorFrom], ?_⟩
    intro hn
    rcases Nat.lt_or_ge n 2 with h2 | h2
    · interval_cases n
      simp [factorFrom]
    · exfalso
      have hdn : d ≤ n := by
        by_contra hlt
        exact hnd n h2 (by omega) dvd_rfl
      omega
  | succ fuel ih =>
    intro n d hd hnd hfuel
    rcases Nat.lt_or_ge n 2 with h2 | h2
    · constructor
      · intro p hp
        simp only [factorFrom, if_pos (by omega : n ≤ 1)] at hp
        exact absurd hp (List.not_mem_nil p)
      · intro hn
        have hn1 : n = 1 := by omega
        simp [factorFrom, hn1]
    · have hnle : ¬ n ≤ 1 := by omega
      by_cases hdvd : d ∣ n
      · have hmod : (n % d == 0) = true := by
          simp [Nat.eq_zero_of_dvd_of_lt, Nat.mod_eq_zero_of_dvd hdvd]
        have hstep : factorFrom (fuel + 1) n d = d :: factorFrom fuel (n / d) d := by
          simp [factorFrom, hnle, hmod]
        have hdp : Nat.Prime d := by
          rw [Nat.prime_def_lt]
          refine ⟨hd, fun q hq hqd => ?_⟩
          by_contra hq1
          have hq2 : 2 ≤ q := by
            rcases Nat.eq_zero_or_pos q with h | h
            · subst h; simp at hqd; omega
            · omega
          exact hnd q hq2 hq (hqd.trans hdvd)
        have hdivle : n / d ≤ n / 2 := Nat.div_le_div_left hd (by omega)
        have hrec := ih (n / d) d hd
          (fun e he hed hedvd => hnd e he hed (hedvd.trans (Nat.div_dvd_of_dvd hdvd)))
          (by omega)
        refine ⟨?_, ?_⟩
        · intro p hp
          rw [hstep] at hp
          rcases List.mem_cons.1 hp with h | h
          · subst h; exact hdp
          · exact hrec.1 p h
        · intro _
          rw [hstep, List.prod_cons,
            hrec.2 (Nat.div_pos (Nat.le_of_dvd (by omega) hdvd) (by omega))]
          exact Nat.mul_div_cancel' hdvd
      · have hmod : (n % d == 0) = false := by
          simp only [beq_eq_false_iff_ne, ne_eq]
          exact fun h => hdvd (Nat.dvd_of_mod_eq_zero h)
        have hstep : factorFrom (fuel + 1) n d = factorFrom fuel n (d + 1) := by
          simp [factorFrom, hnle, hmod]
        have hrec := ih n (d + 1) (by omega)
          (fun e he hed hedvd => by
            rcases Nat.lt_or_ge e d with h | h
            · exact hnd e he h hedvd
            · have : e = d := by omega
              subst this; exact hdvd hedvd)
          (by omega)
        rw [hstep]
        exact hrec

theorem primeFactorsAsc_prime {n p : Nat} (hp : p ∈ primeFactorsAsc n) : Nat.Prime p :=
  (factorFrom_prime_prod (2 * n) n 2 (le_refl 2) (by omega) (by omega)).1 p hp

theorem primeFactorsAsc_prod {n : Nat} (hn : 1 ≤ n) : (primeFactorsAsc n).prod = n :=
  (factorFrom_prime_prod (2 * n) n 2 (le_refl 2) (by omega) (by omega)).2 hn

theorem dedup_prod_eq_toFinset_prod (l : List Nat) :
    l.dedup.prod = ∏ p ∈ l.toFinset, p := by
  induction l with
  | nil => simp
  | cons a l ih =>
    by_cases h : a ∈ l
    · rw [List.dedup_cons_of_mem h, List.toFinset_cons,
        Finset.insert_eq_self.2 (List.mem_toFinset.2 h), ih]
    · rw [List.dedup_cons_of_not_mem h, List.prod_cons, List.toFinset_cons,
        Finset.prod_insert (by simp [h]), ih]

theorem primeFactorsAsc_toFinset {n : Nat} (hn : 1 ≤ n) :
    (primeFactorsAsc n).toFinset = n.primeFactors := by
  ext p
  simp only [List.mem_toFinset, Nat.mem_primeFactors]
  constructor
  · intro hp
    refine ⟨primeFactorsAsc_prime hp, ?_, by omega⟩
    calc p ∣ (primeFactorsAsc n).prod := List.dvd_prod hp
      _ = n := primeFactorsAsc_prod hn
  · rintro ⟨hp, hpn, -⟩
    have hdp : p ∣ (primeFactorsAsc n).prod := by
      rw [primeFactorsAsc_prod hn]; exact hpn
    obtain ⟨q, hq, hpq⟩ := (Prime.dvd_prod_iff hp.prime).1 hdp
    have := (Nat.prime_dvd_prime_iff_eq hp (primeFactorsAsc_prime hq)).1 hpq
    subst this
    exact hq

/-- The "k" of spec §4.1 computed by `generate_a`, in terms of Mathlib's
prime factors. -/
theorem generate_a_eq {m_base : Nat} (h : 2 ≤ m_base) :
    generate_a m_base =
      (if 2 ∣ m_base then 2 * ∏ p ∈ m_base.primeFactors, p
        else ∏ p ∈ m_base.primeFactors, p) + 1 := by
  unfold generate_a
  rw [dedup_prod_eq_toFinset_prod, primeFactorsAsc_toFinset (by omega)]
  by_cases h2 : 2 ∣ m_base
  · have hm : m_base % 2 = 0 := by omega
    simp [hm, h2]
  · have hm : m_base % 2 ≠ 0 := by omega
    simp [hm, h2]

/-! ## Geometric sums and the full-period (Hull-Dobell) argument

`geomS a n = 1 + a + ... + a^(n-1)` is the additive drift accumulated by `n`
steps of `x ↦ a * x + 1`.  The full-period property of the spec (§4.1)
reduces to: `m ∣ geomS a n ↔ m ∣ n` whenever every prime of `m` divides
`a - 1` and `4 ∣ a - 1` when `2 ∣ m`. -/

theorem geomS_ne_zero {a n : Nat} (hn : 1 ≤ n) : geomS a n ≠ 0 := by
  cases n with
  | zero => omega
  | succ n => simp [geomS]

theorem geomS_succ_right (a n : Nat) : geomS a (n + 1) = geomS a n + a ^ n := by
  induction n with
  | zero => simp [geomS]
  | succ n ih =>
    calc geomS a (n + 2) = a * geomS a (n + 1) + 1 := rfl
      _ = a * (geomS a n + a ^ n) + 1 := by rw [ih]
      _ = (a * geomS a n + 1) + a ^ (n + 1) := by ring
      _ = geomS a (n + 1) + a ^ (n + 1) := rfl

theorem pow_eq_geomS_mul_add_one (k n : Nat) :
    (1 + k) ^ n = k * geomS (1 + k) n + 1 := by
  induction n with
  | zero => simp [geomS]
  | succ n ih =>
    calc (1 + k) ^ (n + 1) = (1 + k) ^ n * (1 + k) := by ring
      _ = (k * geomS (1 + k) n + 1) * (1 + k) := by rw [ih]
      _ = k * ((1 + k) * geomS (1 + k) n + 1) + 1 := by ring
      _ = k * geomS (1 + k) (n + 1) + 1 := rfl

theorem geomS_add (a x y : Nat) :
    geomS a (x + y) = geomS a x + a ^ x * geomS a y := by
  induction y with
  | zero => simp [geomS]
  | succ y ih =>
    calc geomS a (x + (y + 1)) = geomS a ((x + y) + 1) := by ring_nf
      _ = geomS a (x + y) + a ^ (x + y) := geomS_succ_right a (x + y)
      _ = geomS a x + a ^ x * geomS a y + a ^ x * a ^ y := by rw [ih, pow_add]
      _ = geomS a x + a ^ x * (geomS a y + a ^ y) := by ring
      _ = geomS a x + a ^ x * geomS a (y + 1) := by rw [geomS_succ_right]

theorem geomS_mul (a n u : Nat) :
    geomS a (n * u) = geomS a n * geomS (a ^ n) u := by
  induction u with
  | zero => simp [geomS]
  | succ u ih =>
    calc geomS a (n * (u + 1)) = geomS a (n * u + n) := by ring_nf
      _ = geomS a (n * u) + a ^ (n * u) * geomS a n := geomS_add a (n * u) n
      _ = geomS a n * geomS (a ^ n) u + (a ^ n) ^ u * geomS a n := by
          rw [ih, pow_mul]
      _ = geomS a n * (geomS (a ^ n) u + (a ^ n) ^ u) := by ring
      _ = geomS a n * geomS (a ^ n) (u + 1) := by rw [geomS_succ_right]

theorem geomS_modEq (K n : Nat) : geomS (1 + K) n ≡ n [MOD K] := by
  induction n with
  | zero => rfl
  | succ n ih =>
    calc geomS (1 + K) (n + 1) = (1 + K) * geomS (1 + K) n + 1 := rfl
      _ = geomS (1 + K) n + 1 + K * geomS (1 + K) n := by ring
      _ ≡ geomS (1 + K) n + 1 [MOD K] := by
          simpa using (Nat.modEq_zero_iff_dvd.2 (Dvd.intro _ rfl)).add_left
            (geomS (1 + K) n + 1)
      _ ≡ n + 1 [MOD K] := ih.add_right 1

theorem geomS_modEq_sq (K n : Nat) :
    geomS (1 + K) n ≡ n + K * tri n [MOD K ^ 2] := by
  induction n with
  | zero => rfl
  | succ n ih =>
    calc geomS (1 + K) (n + 1) = (1 + K) * geomS (1 + K) n + 1 := rfl
      _ ≡ (1 + K) * (n + K * tri n) + 1 [MOD K ^ 2] := (ih.mul_left _).add_right 1
      _ = ((n + 1) + K * tri (n + 1)) + K ^ 2 * tri n := by simp [tri]; ring
      _ ≡ (n + 1) + K * tri (n + 1) [MOD K ^ 2] := by
          simpa using (Nat.modEq_zero_iff_dvd.2 (Dvd.intro _ rfl)).add_left
            ((n + 1) + K * tri (n + 1))

theorem two_mul_tri (n : Nat) : 2 * tri n = n * (n - 1) := by
  induction n with
  | zero => rfl
  | succ n ih =>
    cases n with
    | zero => rfl
    | succ n =>
      calc 2 * tri (n + 2) = 2 * tri (n + 1) + 2 * (n + 1) := by simp [tri]; ring
        _ = (n + 1) * n + 2 * (n + 1) := by rw [ih]; simp
        _ = (n + 2) * (n + 1) := by ring

theorem prime_dvd_tri_self {p : Nat} (hp : p.Prime) (hodd : p ≠ 2) : p ∣ tri p := by
  have h2 : p ∣ 2 * tri p := by
    rw [two_mul_tri]
    exact Dvd.intro _ rfl
  rcases (Nat.Prime.dvd_mul hp).1 h2 with h | h
  · exact absurd ((Nat.prime_dvd_prime_iff_eq hp Nat.prime_two).1 h) hodd
  · exact h

theorem factorization_geomS_of_not_dvd {p K u : Nat} (hpK : p ∣ K)
    (hpu : ¬ p ∣ u) : (geomS (1 + K) u).factorization p = 0 := by
  apply Nat.factorization_eq_zero_of_not_dvd
  intro hdvd
  have h1 : geomS (1 + K) u ≡ u [MOD p] := (geomS_modEq K u).of_dvd hpK
  exact hpu (Nat.modEq_zero_iff_dvd.1 (h1.symm.trans (Nat.modEq_zero_iff_dvd.2 hdvd)))

theorem factorization_geomS_self {p K : Nat} (hp : p.Prime) (hpK : p ∣ K)
    (hp2 : p = 2 → 4 ∣ K) : (geomS (1 + K) p).factorization p = 1 := by
  have hple : 2 ≤ p := hp.two_le
  have hSp : geomS (1 + K) p ≡ p [MOD p ^ 2] := by
    by_cases hodd : p = 2
    · subst hodd
      have h4 : 4 ∣ K := hp2 rfl
      have hS2 : geomS (1 + K) 2 = 2 + K := by simp [geomS]; ring
      rw [hS2]
      have : (4 : Nat) = 2 ^ 2 := by norm_num
      calc (2 + K : Nat) ≡ 2 + 0 [MOD 2 ^ 2] :=
            Nat.ModEq.add_left 2 (by rw [← this]; exact Nat.modEq_zero_iff_dvd.2 h4)
        _ = 2 := by ring
    · have h1 : geomS (1 + K) p ≡ p + K * tri p [MOD p ^ 2] :=
        (geomS_modEq_sq K p).of_dvd (pow_dvd_pow_of_dvd hpK 2)
      have h2 : p + K * tri p ≡ p + 0 [MOD p ^ 2] := by
        apply Nat.ModEq.add_left
        apply Nat.modEq_zero_iff_dvd.2
        calc p ^ 2 = p * p := sq p
          _ ∣ K * tri p := mul_dvd_mul hpK (prime_dvd_tri_self hp hodd)
      exact h1.trans (by simpa using h2)
  have hne : geomS (1 + K) p ≠ 0 := geomS_ne_zero (by omega)
  have hdvd1 : p ∣ geomS (1 + K) p := by
    have := (hSp.of_dvd (dvd_pow_self p (by omega : (2:Nat) ≠ 0))).trans
      (Nat.modEq_zero_iff_dvd.2 dvd_rfl)
    exact Nat.modEq_zero_iff_dvd.1 this
  have hndvd2 : ¬ p ^ 2 ∣ geomS (1 + K) p := by
    intro h
    have : p ≡ 0 [MOD p ^ 2] := hSp.symm.trans (Nat.modEq_zero_iff_dvd.2 h)
    have hle := Nat.le_of_dvd (by omega) (Nat.modEq_zero_iff_dvd.1 this)
    nlinarith
  refine le_antisymm ?_ ?_
  · by_contra hgt
    exact hndvd2 ((Nat.Prime.pow_dvd_iff_le_factorization hp hne).2 (by omega))
  · exact (Nat.Prime.pow_dvd_iff_le_factorization hp hne).1 (by simpa using hdvd1)

/-- The lifting-the-exponent core: for a prime `p` dividing `K` (and `4 ∣ K`
when `p = 2`), the `p`-adic valuation of `1 + (1+K) + ... + (1+K)^(n-1)`
equals that of `n`. -/
theorem factorization_geomS {p : Nat} (hp : p.Prime) :
    ∀ n K, 1 ≤ n → p ∣ K → (p = 2 → 4 ∣ K) →
      (geomS (1 + K) n).factorization p = n.factorization p := by
  intro n
  induction n using Nat.strong_induction_on with
  | _ n ih =>
    intro K hn hpK hp2
    by_cases hpn : p ∣ n
    · obtain ⟨u, rfl⟩ := hpn
      have hp0 : 2 ≤ p := hp.two_le
      have hu : 1 ≤ u := by
        rcases Nat.eq_zero_or_pos u with h | h
        · subst h; omega
        · exact h
      have hu_lt : u < p * u := by nlinarith
      have hpow : (1 + K) ^ p = 1 + K * geomS (1 + K) p := by
        rw [pow_eq_geomS_mul_add_one]; ring
      have hmul : geomS (1 + K) (p * u) =
          geomS (1 + K) p * geomS (1 + (K * geomS (1 + K) p)) u := by
        rw [geomS_mul, hpow]
      have hK' : p ∣ K * geomS (1 + K) p := hpK.mul_right _
      have hK'2 : p = 2 → 4 ∣ K * geomS (1 + K) p := fun h => (hp2 h).mul_right _
      rw [hmul, Nat.factorization_mul (geomS_ne_zero (by omega)) (geomS_ne_zero hu),
        Finsupp.add_apply, factorization_geomS_self hp hpK hp2,
        ih u hu_lt (K * geomS (1 + K) p) hu hK' hK'2,
        Nat.factorization_mul (by omega) (by omega), Finsupp.add_apply,
        Nat.Prime.factorization_self hp]
    · rw [factorization_geomS_of_not_dvd hpK hpn,
        Nat.factorization_eq_zero_of_not_dvd hpn]

/-- The key divisibility equivalence behind the full-period property. -/
theorem dvd_geomS_iff {m k : Nat} (hm : 0 < m)
    (hprimes : ∀ p, p.Prime → p ∣ m → p ∣ k) (h4 : 2 ∣ m → 4 ∣ k) (n : Nat) :
    m ∣ geomS (1 + k) n ↔ m ∣ n := by
  rcases Nat.eq_zero_or_pos n with rfl | hn
  · simp [geomS]
  · have hfact : ∀ p, m.factorization p ≠ 0 →
        (geomS (1 + k) n).factorization p = n.factorization p := by
      intro p hp0
      have hmem : p ∈ m.primeFactors := by
        rw [← Nat.support_factorization]
        exact Finsupp.mem_support_iff.2 hp0
      have hpp := Nat.prime_of_mem_primeFactors hmem
      have hpm := Nat.dvd_of_mem_primeFactors hmem
      exact factorization_geomS hpp n k hn (hprimes p hpp hpm)
        (fun h2 => h4 (h2 ▸ hpm))
    rw [← Nat.factorization_le_iff_dvd (by omega) (geomS_ne_zero hn),
      ← Nat.factorization_le_iff_dvd (by omega) (by omega),
      Finsupp.le_def, Finsupp.le_def]
    constructor <;> intro h p
    · rcases eq_or_ne (m.factorization p) 0 with h0 | h0
      · simp [h0]
      · rw [← hfact p h0]; exact h p
    · rcases eq_or_ne (m.factorization p) 0 with h0 | h0
      · simp [h0]
      · rw [hfact p h0]; exact h p

/-! ## The pure LCG orbit -/


theorem lcgStep_lt {m : Nat} (hm : 0 < m) (a x : Nat) : lcgStep a m x < m :=
  Nat.mod_lt _ hm

theorem lcgIterate_succ (a m seed n : Nat) :
    lcgIterate a m seed (n + 1) = lcgStep a m (lcgIterate a m seed n) := by
  simp only [lcgIterate]
  exact Function.iterate_succ_apply' _ _ _

theorem lcgIterate_lt {a m seed : Nat} (hm : 0 < m) (hseed : seed < m) (n : Nat) :
    lcgIterate a m seed n < m := by
  cases n with
  | zero => exact hseed
  | succ n =>
    rw [lcgIterate, Function.iterate_succ_apply']
    exact lcgStep_lt hm _ _

theorem lcgIterate_formula {a m seed : Nat} (hm : 0 < m) (hseed : seed < m) (n : Nat) :
    lcgIterate a m seed n = (a ^ n * seed + geomS a n) % m := by
  induction n with
  | zero => simp [lcgIterate, geomS, Nat.mod_eq_of_lt hseed]
  | succ n ih =>
    rw [lcgIterate, Function.iterate_succ_apply', ← lcgIterate, ih]
    show (a * ((a ^ n * seed + geomS a n) % m) + 1) % m = _
    have h1 : a * ((a ^ n * seed + geomS a n) % m) + 1 ≡
        a * (a ^ n * seed + geomS a n) + 1 [MOD m] :=
      ((Nat.mod_modEq _ m).mul_left a).add_right 1
    have h2 : a * (a ^ n * seed + geomS a n) + 1 =
        a ^ (n + 1) * seed + geomS a (n + 1) := by
      show _ = _ * _ + (a * geomS a n + 1)
      ring
    exact h2 ▸ h1

theorem lcg_return_iff {m k seed : Nat} (h : FullPeriod m k) (hseed : seed < m)
    (n : Nat) : lcgIterate (1 + k) m seed n = seed ↔ m ∣ n := by
  rw [lcgIterate_formula h.pos hseed]
  have key : (1 + k) ^ n * seed + geomS (1 + k) n =
      seed + geomS (1 + k) n * (k * seed + 1) := by
    rw [pow_eq_geomS_mul_add_one]; ring
  rw [key]
  have hco : Nat.Coprime m (k * seed + 1) := by
    apply Nat.coprime_of_dvd
    intro p hp hpm hpd
    have hpk : p ∣ k * seed := (h.primes p hp hpm).mul_right seed
    have : p ∣ 1 := (Nat.dvd_add_right hpk).1 hpd
    exact Nat.Prime.one_lt hp |>.ne' (Nat.dvd_one.1 this)
  constructor
  · intro hmod
    have hself : seed % m = seed := Nat.mod_eq_of_lt hseed
    have hmodEq : seed + geomS (1 + k) n * (k * seed + 1) ≡ seed + 0 [MOD m] := by
      show _ % m = _ % m
      rw [hmod, Nat.add_zero, hself]
    have hX : m ∣ geomS (1 + k) n * (k * seed + 1) :=
      Nat.modEq_zero_iff_dvd.1 (hmodEq.add_left_cancel' seed)
    exact (dvd_geomS_iff h.pos h.primes h.four n).1 (hco.dvd_of_dvd_mul_right hX)
  · intro hmn
    have hX : m ∣ geomS (1 + k) n * (k * seed + 1) :=
      ((dvd_geomS_iff h.pos h.primes h.four n).2 hmn).mul_right _
    calc (seed + geomS (1 + k) n * (k * seed + 1)) % m
        = (seed + 0) % m := (Nat.modEq_zero_iff_dvd.2 hX).add_left seed
      _ = seed := by rw [Nat.add_zero]; exact Nat.mod_eq_of_lt hseed

theorem lcg_iterate_full {m k seed : Nat} (h : FullPeriod m k) (hseed : seed < m) :
    lcgIterate (1 + k) m seed m = seed :=
  (lcg_return_iff h hseed m).2 dvd_rfl

theorem lcgStep_injOn {m k : Nat} (h : FullPeriod m k) :
    ∀ x y, x < m → y < m → lcgStep (1 + k) m x = lcgStep (1 + k) m y → x = y := by
  obtain ⟨m', rfl⟩ : ∃ m', m = m' + 1 := ⟨m - 1, by have := h.pos; omega⟩
  intro x y hx hy hxy
  have hfx : (lcgStep (1 + k) (m' + 1))^[m'] (lcgStep (1 + k) (m' + 1) x) = x := by
    have := lcg_iterate_full h hx
    rwa [lcgIterate, Function.iterate_succ_apply] at this
  have hfy : (lcgStep (1 + k) (m' + 1))^[m'] (lcgStep (1 + k) (m' + 1) y) = y := by
    have := lcg_iterate_full h hy
    rwa [lcgIterate, Function.iterate_succ_apply] at this
  rw [← hfx, ← hfy, hxy]

theorem lcgIterate_cancel {m k : Nat} (h : FullPeriod m k) :
    ∀ t x y, x < m → y < m →
      (lcgStep (1 + k) m)^[t] x = (lcgStep (1 + k) m)^[t] y → x = y := by
  intro t
  induction t with
  | zero => intro x y _ _ hxy; simpa using hxy
  | succ t iht =>
    intro x y hx hy hxy
    rw [Function.iterate_succ_apply, Function.iterate_succ_apply] at hxy
    exact lcgStep_injOn h x y hx hy
      (iht _ _ (lcgStep_lt h.pos _ _) (lcgStep_lt h.pos _ _) hxy)

theorem lcgIterate_injOn {m k seed : Nat} (h : FullPeriod m k) (hseed : seed < m) :
    ∀ i j, i < m → j < m →
      lcgIterate (1 + k) m seed i = lcgIterate (1 + k) m seed j → i = j := by
  have main : ∀ i j, i ≤ j → j < m →
      lcgIterate (1 + k) m seed i = lcgIterate (1 + k) m seed j → i = j := by
    intro i j hle hj hij
    obtain ⟨d, rfl⟩ : ∃ d, j = i + d := ⟨j - i, by omega⟩
    have hadd : lcgIterate (1 + k) m seed (i + d) =
        (lcgStep (1 + k) m)^[i] (lcgIterate (1 + k) m seed d) := by
      show (lcgStep (1 + k) m)^[i + d] seed = _
      rw [Nat.add_comm, Function.iterate_add_apply]
      rfl
    have hd : lcgIterate (1 + k) m seed d = seed := by
      apply lcgIterate_cancel h i _ _ (lcgIterate_lt h.pos hseed d) hseed
      show (lcgStep (1 + k) m)^[i] (lcgIterate (1 + k) m seed d) =
        (lcgStep (1 + k) m)^[i] seed
      rw [← hadd, ← hij]
      rfl
    have : m ∣ d := (lcg_return_iff h hseed d).1 hd
    have : d = 0 := by
      rcases Nat.eq_zero_or_pos d with h0 | h0
      · exact h0
      · exact absurd (Nat.le_of_dvd h0 this) (by omega)
    omega
  intro i j hi hj hij
  rcases le_total i j with hle | hle
  · exact main i j hle hj hij
  · exact (main j i hle hi hij.symm).symm

theorem lcgIterate_surjOn {m k seed : Nat} (h : FullPeriod m k) (hseed : seed < m) :
    ∀ v, v < m → ∃ i, i < m ∧ lcgIterate (1 + k) m seed i = v := by
  have : 0 < m := h.pos
  let F : Fin m → Fin m := fun i => ⟨lcgIterate (1 + k) m seed i,
    lcgIterate_lt h.pos hseed i⟩
  have hinj : Function.Injective F := by
    intro i j hij
    exact Fin.ext (lcgIterate_injOn h hseed i j i.2 j.2 (congrArg Fin.val hij))
  have hsurj : Function.Surjective F := Finite.surjective_of_injective hinj
  intro v hv
  obtain ⟨i, hi⟩ := hsurj ⟨v, hv⟩
  exact ⟨i, i.2, congrArg Fin.val hi⟩

/-- The Hull-Dobell hypotheses hold for `m = s ^ L` and the multiplier
`generate_a s` (spec §4.1), i.e. for `k = generate_a s - 1`. -/
theorem fullPeriod_generate_a {s L : Nat} (hs : 2 ≤ s) (hL : 1 ≤ L) :
    FullPeriod (s ^ L) (generate_a s - 1) := by
  have hrad : ∀ p, p.Prime → p ∣ s → p ∣ ∏ q ∈ s.primeFactors, q := by
    intro p hp hps
    exact Finset.dvd_prod_of_mem _ (Nat.mem_primeFactors.2 ⟨hp, hps, by omega⟩)
  have hk : generate_a s - 1 =
      if 2 ∣ s then 2 * ∏ q ∈ s.primeFactors, q else ∏ q ∈ s.primeFactors, q := by
    rw [generate_a_eq hs]; omega
  refine ⟨Nat.pos_pow_of_pos L (by omega), ?_, ?_⟩
  · intro p hp hpm
    have hps : p ∣ s := hp.dvd_of_dvd_pow hpm
    rw [hk]
    by_cases h2 : 2 ∣ s
    · rw [if_pos h2]
      exact (hrad p hp hps).mul_left 2
    · rw [if_neg h2]
      exact hrad p hp hps
  · intro h2m
    have h2s : 2 ∣ s := Nat.prime_two.dvd_of_dvd_pow h2m
    rw [hk, if_pos h2s]
    have h2r : 2 ∣ ∏ q ∈ s.primeFactors, q := hrad 2 Nat.prime_two h2s
    obtain ⟨r, hr⟩ := h2r
    rw [hr]
    exact ⟨r, by ring⟩

/-! ## Properties of the digit decomposition -/

namespace ShortCodeGenerator

variable {T : Type}

theorem toDigitsWith_length [Inhabited T] (alphabet : List T) (s L v : Nat) :
    (toDigitsWith alphabet s L v).length = L := by
  induction L generalizing v with
  | zero => rfl
  | succ L ih => simp [toDigitsWith, ih]

theorem toDigitsWith_getD [Inhabited T] (alphabet : List T) (s L v : Nat) :
    ∀ j, j < L → (toDigitsWith alphabet s L v).getD j default =
      alphabet.getD (v / s ^ j % s) default := by
  induction L generalizing v with
  | zero => omega
  | succ L ih =>
    intro j hj
    cases j with
    | zero => simp [toDigitsWith]
    | succ j =>
      have := ih (v / s) j (by omega)
      simpa [toDigitsWith, Nat.div_div_eq_div_mul, pow_succ, Nat.mul_comm] using this

theorem toDigitsWith_injOn [Inhabited T] {alphabet : List T} (hnd : alphabet.Nodup)
    {L v w : Nat} (hv : v < alphabet.length ^ L) (hw : w < alphabet.length ^ L)
    (heq : toDigitsWith alphabet alphabet.length L v =
      toDigitsWith alphabet alphabet.length L w) : v = w := by
  induction L generalizing v w with
  | zero =>
    simp only [pow_zero, Nat.lt_one_iff] at hv hw
    omega
  | succ L ih =>
    have hs : 0 < alphabet.length := by
      rcases Nat.eq_zero_or_pos alphabet.length with h | h
      · rw [h] at hv; simp at hv
      · exact h
    rw [toDigitsWith] at heq
    rw [toDigitsWith] at heq
    injection heq with hhead htail
    have hv' : v / alphabet.length < alphabet.length ^ L := by
      rw [Nat.div_lt_iff_lt_mul hs, ← pow_succ]
      exact hv
    have hw' : w / alphabet.length < alphabet.length ^ L := by
      rw [Nat.div_lt_iff_lt_mul hs, ← pow_succ]
      exact hw
    have hdiv := ih hv' hw' htail
    have hmodv : v % alphabet.length < alphabet.length := Nat.mod_lt _ hs
    have hmodw : w % alphabet.length < alphabet.length := Nat.mod_lt _ hs
    rw [List.getD_eq_getElem _ _ hmodv, List.getD_eq_getElem _ _ hmodw] at hhead
    have hmod : v % alphabet.length = w % alphabet.length :=
      (List.Nodup.getElem_inj_iff hnd).1 hhead
    rw [← Nat.div_add_mod v alphabet.length, ← Nat.div_add_mod w alphabet.length,
      hdiv, hmod]


theorem encodeWord_lt [DecidableEq T] {alphabet : List T} {w : List T} {L : Nat}
    (hw : ∀ x ∈ w, x ∈ alphabet) (hlen : w.length = L) :
    encodeWord alphabet w < alphabet.length ^ L := by
  induction w generalizing L with
  | nil => subst hlen; simp [encodeWord]
  | cons c w ih =>
    cases L with
    | zero => simp at hlen
    | succ L =>
      have hidx : alphabet.indexOf c < alphabet.length :=
        List.indexOf_lt_length.2 (hw c (List.mem_cons_self c w))
      have he : encodeWord alphabet w < alphabet.length ^ L :=
        ih (fun x hx => hw x (List.mem_cons_of_mem c hx)) (by simpa using hlen)
      have h1 : alphabet.length * encodeWord alphabet w + alphabet.length ≤
          alphabet.length * alphabet.length ^ L := by
        have := Nat.mul_le_mul_left alphabet.length he
        rwa [Nat.mul_succ] at this
      have : alphabet.length ^ (L + 1) = alphabet.length * alphabet.length ^ L := by
        ring
      rw [encodeWord, this]
      omega

theorem toDigitsWith_encodeWord [Inhabited T] [DecidableEq T] {alphabet : List T}
    {w : List T} {L : Nat} (hw : ∀ x ∈ w, x ∈ alphabet) (hlen : w.length = L) :
    toDigitsWith alphabet alphabet.length L (encodeWord alphabet w) = w := by
  induction w generalizing L with
  | nil => subst hlen; rfl
  | cons c w ih =>
    cases L with
    | zero => simp at hlen
    | succ L =>
      have hidx : alphabet.indexOf c < alphabet.length :=
        List.indexOf_lt_length.2 (hw c (List.mem_cons_self c w))
      have hs : 0 < alphabet.length := by omega
      rw [toDigitsWith, encodeWord]
      have hmod : (alphabet.indexOf c + alphabet.length * encodeWord alphabet w) %
          alphabet.length = alphabet.indexOf c := by
        rw [Nat.add_mul_mod_self_left, Nat.mod_eq_of_lt hidx]
      have hdiv : (alphabet.indexOf c + alphabet.length * encodeWord alphabet w) /
          alphabet.length = encodeWord alphabet w := by
        rw [Nat.add_mul_div_left _ _ hs, Nat.div_eq_of_lt hidx, Nat.zero_add]
      rw [hmod, hdiv]
      congr 1
      · rw [List.getD_eq_getElem _ _ hidx]
        exact List.getElem_indexOf hidx
      · exact ih (fun x hx => hw x (List.mem_cons_of_mem c hx)) (by simpa using hlen)

/-! ## Iterated generation -/
/-- Evaluating `nextIntPre` when the generator is not partitioned: the skip
loop is empty, so the only effect is setting `skip_before_next`. -/
theorem nextIntPre_of_skip_none {g : ShortCodeGenerator T} (h : g.skip = none) :
    g.nextIntPre = some ({ g with skip_before_next := true }, []) := by
  cases g with
  | mk lcm offset alphabet length es rng skip sbn =>
    simp only at h
    subst h
    unfold nextIntPre
    cases sbn
    · rfl
    · rfl

/-- Evaluating `step` under the `Cycle` strategy: the exhaustion check never
acts, and the call reduces to `lcm.next()`. -/
theorem step_cycle {g : ShortCodeGenerator T}
    (h : g.exhaustion_strategy = ExhaustionStrategy.Cycle) :
    g.step = some ((g.lcm.next).1, { g with lcm := (g.lcm.next).2 }) := by
  unfold step
  rcases he : g.lcm.exhausted with _ | _
  · simp [he]
  · simp [he, h]

/-- Evaluating `next_int` from the values of its two phases. -/
theorem next_int_of_pre_step {g g1 g2 : ShortCodeGenerator T} {out : List String}
    {r : Nat} (hpre : g.nextIntPre = some (g1, out)) (hstep : g1.step = some (r, g2)) :
    g.next_int = some ((r + g2.offset) % g2.lcm.m, g2, out) := by
  unfold next_int
  rw [hpre]
  simp only [hstep]

/-- Evaluating `next_vec` from the value of `next_int`. -/
theorem next_vec_of_int [Inhabited T] {g g' : ShortCodeGenerator T} {v : Nat}
    {out : List String} (hint : g.next_int = some (v, g', out)) :
    g.next_vec = some (toDigitsWith g'.alphabet g.alphabet.length g'.length v, g', out) := by
  unfold next_vec
  simp only [hint]

theorem next_int_cycle {g : ShortCodeGenerator T}
    (hstrat : g.exhaustion_strategy = ExhaustionStrategy.Cycle) (hskip : g.skip = none) :
    g.next_int = some (((g.lcm.next).1 + g.offset) % g.lcm.m,
      { g with lcm := (g.lcm.next).2, skip_before_next := true }, []) :=
  next_int_of_pre_step (nextIntPre_of_skip_none hskip) (step_cycle hstrat)

theorem next_vec_cycle_raw [Inhabited T] {g : ShortCodeGenerator T}
    (hstrat : g.exhaustion_strategy = ExhaustionStrategy.Cycle) (hskip : g.skip = none) :
    g.next_vec = some
      (toDigitsWith g.alphabet g.alphabet.length g.length
        ((g.lcm.current + g.offset) % g.lcm.m),
      { g with lcm := (g.lcm.next).2, skip_before_next := true }, []) :=
  next_vec_of_int (next_int_cycle hstrat hskip)


theorem cycleState_next [Inhabited T] {alphabet : List T} {L off m a seed n : Nat}
    {g : ShortCodeGenerator T} (h : IsCycleState alphabet L off m a seed n g) :
    g.next_vec = some
      (toDigitsWith alphabet alphabet.length L ((lcgIterate a m seed n + off) % m),
      { g with lcm := (g.lcm.next).2, skip_before_next := true }, []) ∧
    IsCycleState alphabet L off m a seed (n + 1)
      ({ g with lcm := (g.lcm.next).2, skip_before_next := true }) := by
  constructor
  · rw [next_vec_cycle_raw h.strat h.skip_eq, h.alph, h.len, h.off_eq, h.m_eq, h.cur]
  · refine ⟨h.alph, h.len, h.off_eq, h.strat, h.skip_eq, h.m_eq, h.a_eq, h.c_eq, ?_⟩
    show (g.lcm.a * g.lcm.current + g.lcm.c) % g.lcm.m = _
    rw [h.a_eq, h.c_eq, h.m_eq, h.cur, lcgIterate_succ]
    rfl

theorem iterVec_cycle [Inhabited T] {alphabet : List T} {L off m a seed : Nat} :
    ∀ (n n0 : Nat) (g : ShortCodeGenerator T),
      IsCycleState alphabet L off m a seed n0 g →
      ∃ gn, iterVec n g = some gn ∧ IsCycleState alphabet L off m a seed (n0 + n) gn := by
  intro n
  induction n with
  | zero => intro n0 g h; exact ⟨g, rfl, h⟩
  | succ n ih =>
    intro n0 g h
    obtain ⟨hvec, hinv⟩ := cycleState_next h
    obtain ⟨gn, hit, hinv'⟩ := ih (n0 + 1) _ hinv
    refine ⟨gn, ?_, by rwa [show n0 + (n + 1) = n0 + 1 + n by omega]⟩
    show iterVec (n + 1) g = some gn
    unfold iterVec
    rw [hvec]
    exact hit

theorem vecOutAt_cycle [Inhabited T] {alphabet : List T} {L off m a seed : Nat}
    {g0 : ShortCodeGenerator T} (h0 : IsCycleState alphabet L off m a seed 0 g0)
    (n : Nat) :
    vecOutAt g0 n = some
      (toDigitsWith alphabet alphabet.length L ((lcgIterate a m seed n + off) % m)) := by
  obtain ⟨gn, hit, hinv⟩ := iterVec_cycle n 0 g0 h0
  rw [Nat.zero_add] at hinv
  unfold vecOutAt
  rw [hit]
  simp only [(cycleState_next hinv).1, Option.map_some']

end ShortCodeGenerator

theorem one_le_generate_a (s : Nat) : 1 ≤ generate_a s := by
  show 1 ≤ (if s % 2 == 0 then 2 * (primeFactorsAsc s).dedup.prod
    else (primeFactorsAsc s).dedup.prod) + 1
  omega

/-! ## Claim C1 -/

open ShortCodeGenerator in
/-- C1: for every alphabet of size `s ≥ 2` and every code length `L ≥ 1`,
with `m = s ^ L`, a generator configured with the `Cycle` exhaustion
strategy emits each of the `m` possible codes exactly once before
repeating (the first `m` calls to `next_vec` are pairwise distinct and
every length-`L` word over the alphabet occurs among them), and the
`m`-th call (0-based; the call after the `m` distinct ones) returns the
first call's output again. -/
theorem c1_cycle_full_period {T : Type} [Inhabited T] [DecidableEq T]
    (alphabet : List T) (L : Nat) (rng : ChaCha12Rng)
    (hnd : alphabet.Nodup) (hs : 2 ≤ alphabet.length) (hL : 1 ≤ L)
    (g : ShortCodeGenerator T)
    (hg : g = (with_alphabet_and_rng alphabet L rng).set_exhaustion_strategy
      ExhaustionStrategy.Cycle) :
    (∀ i j, i < alphabet.length ^ L → j < alphabet.length ^ L →
      vecOutAt g i = vecOutAt g j → i = j) ∧
    (∀ w : List T, w.length = L → (∀ x ∈ w, x ∈ alphabet) →
      ∃ i, i < alphabet.length ^ L ∧ vecOutAt g i = some w) ∧
    vecOutAt g (alphabet.length ^ L) = vecOutAt g 0 := by
  subst hg
  have hm : 0 < alphabet.length ^ L := Nat.pos_pow_of_pos L (by omega)
  have hFP : FullPeriod (alphabet.length ^ L) (generate_a alphabet.length - 1) :=
    fullPeriod_generate_a hs hL
  have ha : 1 + (generate_a alphabet.length - 1) = generate_a alphabet.length := by
    have h1 := one_le_generate_a alphabet.length
    omega
  have hseed : rng.stream.headD 0 % alphabet.length ^ L < alphabet.length ^ L :=
    Nat.mod_lt _ hm
  have h0 : IsCycleState alphabet L
      (rng.stream.tail.headD 0 % alphabet.length ^ L) (alphabet.length ^ L)
      (generate_a alphabet.length) (rng.stream.headD 0 % alphabet.length ^ L) 0
      ((with_alphabet_and_rng alphabet L rng).set_exhaustion_strategy
        ExhaustionStrategy.Cycle) :=
    ⟨rfl, rfl, rfl, rfl, rfl, rfl, rfl, rfl, rfl⟩
  have hout := vecOutAt_cycle h0
  have hinj := lcgIterate_injOn hFP hseed
  rw [ha] at hinj
  have hlt : ∀ n, lcgIterate (generate_a alphabet.length) (alphabet.length ^ L)
      (rng.stream.headD 0 % alphabet.length ^ L) n < alphabet.length ^ L :=
    fun n => lcgIterate_lt hm hseed n
  refine ⟨?_, ?_, ?_⟩
  · intro i j hi hj hij
    rw [hout i, hout j] at hij
    have heq := Option.some.inj hij
    have hv := toDigitsWith_injOn hnd (Nat.mod_lt _ hm) (Nat.mod_lt _ hm) heq
    have hmodeq : lcgIterate (generate_a alphabet.length) (alphabet.length ^ L)
        (rng.stream.headD 0 % alphabet.length ^ L) i ≡
        lcgIterate (generate_a alphabet.length) (alphabet.length ^ L)
        (rng.stream.headD 0 % alphabet.length ^ L) j [MOD alphabet.length ^ L] :=
      Nat.ModEq.add_right_cancel' _ hv
    exact hinj i j hi hj (hmodeq.eq_of_lt_of_lt (hlt i) (hlt j))
  · intro w hwlen hwmem
    have hv : encodeWord alphabet w < alphabet.length ^ L := encodeWord_lt hwmem hwlen
    have hoffm : rng.stream.tail.headD 0 % alphabet.length ^ L % alphabet.length ^ L <
        alphabet.length ^ L := Nat.mod_lt _ hm
    have hsurj := lcgIterate_surjOn hFP hseed
    rw [ha] at hsurj
    obtain ⟨i, hi, hx⟩ := hsurj
      ((encodeWord alphabet w +
        (alphabet.length ^ L -
          rng.stream.tail.headD 0 % alphabet.length ^ L % alphabet.length ^ L)) %
        alphabet.length ^ L)
      (Nat.mod_lt _ hm)
    refine ⟨i, hi, ?_⟩
    rw [hout i, hx]
    have hmf : ((encodeWord alphabet w +
        (alphabet.length ^ L -
          rng.stream.tail.headD 0 % alphabet.length ^ L % alphabet.length ^ L)) %
          alphabet.length ^ L +
        rng.stream.tail.headD 0 % alphabet.length ^ L) % alphabet.length ^ L =
        encodeWord alphabet w := by
      have h1 : (encodeWord alphabet w +
          (alphabet.length ^ L -
            rng.stream.tail.headD 0 % alphabet.length ^ L % alphabet.length ^ L)) %
            alphabet.length ^ L +
          rng.stream.tail.headD 0 % alphabet.length ^ L ≡
          encodeWord alphabet w +
          (alphabet.length ^ L -
            rng.stream.tail.headD 0 % alphabet.length ^ L % alphabet.length ^ L) +
          rng.stream.tail.headD 0 % alphabet.length ^ L [MOD alphabet.length ^ L] :=
        (Nat.mod_modEq _ _).add_right _
      have h2 : encodeWord alphabet w +
          (alphabet.length ^ L -
            rng.stream.tail.headD 0 % alphabet.length ^ L % alphabet.length ^ L) +
          rng.stream.tail.headD 0 % alphabet.length ^ L ≡
          encodeWord alphabet w +
          (alphabet.length ^ L -
            rng.stream.tail.headD 0 % alphabet.length ^ L % alphabet.length ^ L) +
          rng.stream.tail.headD 0 % alphabet.length ^ L % alphabet.length ^ L
          [MOD alphabet.length ^ L] :=
        Nat.ModEq.add_left _ (Nat.mod_modEq _ _).symm
      have h3 : encodeWord alphabet w +
          (alphabet.length ^ L -
            rng.stream.tail.headD 0 % alphabet.length ^ L % alphabet.length ^ L) +
          rng.stream.tail.headD 0 % alphabet.length ^ L % alphabet.length ^ L =
          encodeWord alphabet w + alphabet.length ^ L := by omega
      have h4 : encodeWord alphabet w + alphabet.length ^ L ≡
          encodeWord alphabet w + 0 [MOD alphabet.length ^ L] :=
        Nat.ModEq.add_left _ (Nat.modEq_zero_iff_dvd.2 dvd_rfl)
      have h5 := ((h1.trans h2).trans (h3 ▸ h4))
      have h6 : (encodeWord alphabet w + 0) % alphabet.length ^ L =
          encodeWord alphabet w := by
        rw [Nat.add_zero]
        exact Nat.mod_eq_of_lt hv
      have h7 : ((encodeWord alphabet w +
          (alphabet.length ^ L -
            rng.stream.tail.headD 0 % alphabet.length ^ L % alphabet.length ^ L)) %
            alphabet.length ^ L +
          rng.stream.tail.headD 0 % alphabet.length ^ L) % alphabet.length ^ L =
          (encodeWord alphabet w + 0) % alphabet.length ^ L := h5
      exact h7.trans h6
    rw [hmf, toDigitsWith_encodeWord hwmem hwlen]
  · rw [hout (alphabet.length ^ L), hout 0]
    have hfull := lcg_iterate_full hFP hseed
    rw [ha] at hfull
    rw [hfull]
    rfl

open ShortCodeGenerator in
/-- Witness for C1: a binary alphabet of length-1 codes; the 2nd (0-based)
call repeats the 0th. -/
theorem c1_cycle_full_period_witness :
    ([0, 1] : List Nat).Nodup ∧ 2 ≤ ([0, 1] : List Nat).length ∧ 1 ≤ 1 ∧
    vecOutAt ((with_alphabet_and_rng ([0, 1] : List Nat) 1
        ⟨[]⟩).set_exhaustion_strategy ExhaustionStrategy.Cycle)
      (([0, 1] : List Nat).length ^ 1) =
    vecOutAt ((with_alphabet_and_rng ([0, 1] : List Nat) 1
        ⟨[]⟩).set_exhaustion_strategy ExhaustionStrategy.Cycle) 0 :=
  ⟨by decide, by decide, by decide,
    (c1_cycle_full_period ([0, 1] : List Nat) 1 ⟨[]⟩ (by decide) (by decide)
      (by decide) _ rfl).2.2⟩

/-! ## Claim C5 -/

open ShortCodeGenerator in
/-- C5: `next_int` computes `value = (raw + offset) mod m` where `raw` is
drawn from the internal generator by `step` (after the skip phase), and
`next_vec` returns exactly `code_length` symbols, the `j`-th being the
alphabet symbol indexed by the `j`-th base-`alphabet_size` digit of
`value`, least-significant digit first. -/
theorem c5_next_vec_decomposition :
    (∀ (T : Type) (g g1 g2 : ShortCodeGenerator T) (out : List String) (r : Nat),
      g.nextIntPre = some (g1, out) → g1.step = some (r, g2) →
      g.next_int = some ((r + g2.offset) % g2.lcm.m, g2, out)) ∧
    (∀ (T : Type) [Inhabited T] (g g' : ShortCodeGenerator T) (v : Nat)
      (out : List String), g.next_int = some (v, g', out) →
      g.next_vec =
        some (toDigitsWith g'.alphabet g.alphabet.length g'.length v, g', out) ∧
      (toDigitsWith g'.alphabet g.alphabet.length g'.length v).length = g'.length ∧
      (∀ j, j < g'.length →
        (toDigitsWith g'.alphabet g.alphabet.length g'.length v).getD j default =
          g'.alphabet.getD (v / g.alphabet.length ^ j % g.alphabet.length) default)) :=
  ⟨fun _ _ _ _ _ _ h1 h2 => next_int_of_pre_step h1 h2,
    fun _ _ _ _ _ _ hint =>
      ⟨next_vec_of_int hint, toDigitsWith_length _ _ _ _,
        fun j hj => toDigitsWith_getD _ _ _ _ j hj⟩⟩

open ShortCodeGenerator in
/-- Witness for C5 at a concrete fresh numeric generator with offset 7. -/
theorem c5_next_vec_decomposition_witness :
    (⟨⟨0, 0, 10, 1, 3, false⟩, 7, [0, 1, 2, 3, 4, 5, 6, 7, 8, 9], 1,
      ExhaustionStrategy.Cycle, none, none, false⟩ :
        ShortCodeGenerator Nat).next_vec =
      some (toDigitsWith [0, 1, 2, 3, 4, 5, 6, 7, 8, 9] 10 1 7,
        ⟨⟨0, 1, 10, 1, 3, false⟩, 7, [0, 1, 2, 3, 4, 5, 6, 7, 8, 9], 1,
          ExhaustionStrategy.Cycle, none, none, true⟩, []) :=
  (c5_next_vec_decomposition.2 Nat
    (⟨⟨0, 0, 10, 1, 3, false⟩, 7, [0, 1, 2, 3, 4, 5, 6, 7, 8, 9], 1,
      ExhaustionStrategy.Cycle, none, none, false⟩ : ShortCodeGenerator Nat)
    (⟨⟨0, 1, 10, 1, 3, false⟩, 7, [0, 1, 2, 3, 4, 5, 6, 7, 8, 9], 1,
      ExhaustionStrategy.Cycle, none, none, true⟩ : ShortCodeGenerator Nat)
    7 [] (by decide)).1

/-! ## The integer generator run: exhaustion timing -/

theorem lcmIter_zero (l : LinearCongruentMultiplier) : lcmIter l 0 = l := rfl

theorem lcmIter_succ (l : LinearCongruentMultiplier) (n : Nat) :
    lcmIter l (n + 1) = ((lcmIter l n).next).2 := by
  simp only [lcmIter]
  exact Function.iterate_succ_apply' _ _ _

theorem lcmIter_new_fields (seed m a n : Nat) :
    (lcmIter (LinearCongruentMultiplier.new seed m 1 a) n).first = seed ∧
    (lcmIter (LinearCongruentMultiplier.new seed m 1 a) n).m = m ∧
    (lcmIter (LinearCongruentMultiplier.new seed m 1 a) n).c = 1 ∧
    (lcmIter (LinearCongruentMultiplier.new seed m 1 a) n).a = a ∧
    (lcmIter (LinearCongruentMultiplier.new seed m 1 a) n).current =
      lcgIterate a m seed n := by
  induction n with
  | zero => exact ⟨rfl, rfl, rfl, rfl, rfl⟩
  | succ n ih =>
    obtain ⟨h1, h2, h3, h4, h5⟩ := ih
    rw [lcmIter_succ]
    refine ⟨h1, h2, h3, h4, ?_⟩
    show ((lcmIter _ n).a * (lcmIter _ n).current + (lcmIter _ n).c) %
      (lcmIter _ n).m = _
    rw [h2, h3, h4, h5, lcgIterate_succ]
    rfl

theorem lcmIter_new_exhausted {m k seed : Nat} (hFP : FullPeriod m k)
    (hseed : seed < m) (n : Nat) :
    ((lcmIter (LinearCongruentMultiplier.new seed m 1 (1 + k)) n).exhausted = true) ↔
      m ≤ n := by
  induction n with
  | zero =>
    rw [lcmIter_zero]
    have := hFP.pos
    simp only [LinearCongruentMultiplier.new, Bool.false_eq_true, false_iff]
    omega
  | succ n ih =>
    rw [lcmIter_succ]
    obtain ⟨h1, h2, h3, h4, h5⟩ := lcmIter_new_fields seed m (1 + k) n
    show ((lcmIter _ n).exhausted ||
      ((((lcmIter _ n).a * (lcmIter _ n).current + (lcmIter _ n).c) %
        (lcmIter _ n).m) == (lcmIter _ n).first)) = true ↔ _
    rw [h1, h2, h3, h4, h5, Bool.or_eq_true, beq_iff_eq, ih]
    have hx : ((1 + k) * lcgIterate (1 + k) m seed n + 1) % m =
        lcgIterate (1 + k) m seed (n + 1) := by
      rw [lcgIterate_succ]
      rfl
    rw [hx, lcg_return_iff hFP hseed (n + 1)]
    constructor
    · rintro (h | h)
      · omega
      · exact Nat.le_of_dvd (by omega) h
    · intro h
      by_cases hn : m ≤ n
      · exact Or.inl hn
      · refine Or.inr ?_
        have : m = n + 1 := by omega
        exact this ▸ dvd_rfl

/-! ## Claim C3 -/

/-- C3: for every alphabet base `m_base ≥ 2`, the multiplier computed at
construction equals `k + 1`, where `k` is the product of the distinct prime
factors of `m_base`, doubled when `m_base` is even; in particular the
multipliers for base sizes 6, 7, 26 and 99 are 13, 8, 53 and 34. -/
theorem c3_multiplier_selection :
    (∀ (T : Type) (alphabet : List T) (L : Nat) (rng : ChaCha12Rng),
      (ShortCodeGenerator.with_alphabet_and_rng alphabet L rng).lcm.a =
        generate_a alphabet.length) ∧
    (∀ m_base : Nat, 2 ≤ m_base →
      generate_a m_base =
        (if 2 ∣ m_base then 2 * ∏ p ∈ m_base.primeFactors, p
          else ∏ p ∈ m_base.primeFactors, p) + 1) ∧
    generate_a 6 = 13 ∧ generate_a 7 = 8 ∧ generate_a 26 = 53 ∧ generate_a 99 = 34 := by
  refine ⟨fun T alphabet L rng => rfl, fun m h => generate_a_eq h, ?_, ?_, ?_, ?_⟩ <;>
    decide

/-- Witness for C3 at `m_base = 10`. -/
theorem c3_multiplier_selection_witness :
    2 ≤ 10 ∧ generate_a 10 =
      (if 2 ∣ 10 then 2 * ∏ p ∈ Nat.primeFactors 10, p
        else ∏ p ∈ Nat.primeFactors 10, p) + 1 :=
  ⟨by decide, c3_multiplier_selection.2.1 10 (by decide)⟩

/-! ## Claim C4 -/

/-- C4: `next()` returns the pre-update value of `current`, then sets
`current = (a * current + c) mod m`, and the resulting `exhausted` flag is
set exactly when the flag was already set or the new `current` equals
`first`; consequently, for a full-period configuration
(`m = s ^ L`, multiplier `generate_a s`, increment 1), `exhausted` becomes
true at the `m`-th call — the call returning the last unique value — and
not before nor later. -/
theorem c4_next_pre_update_and_exhaustion_timing :
    (∀ l : LinearCongruentMultiplier,
      (l.next).1 = l.current ∧
      (l.next).2.current = (l.a * l.current + l.c) % l.m ∧
      ((l.next).2.exhausted = true ↔
        l.exhausted = true ∨ (l.a * l.current + l.c) % l.m = l.first)) ∧
    (∀ s L seed : Nat, 2 ≤ s → 1 ≤ L → seed < s ^ L →
      ∀ n, (((lcmIter (LinearCongruentMultiplier.new seed (s ^ L) 1 (generate_a s))
        n).exhausted = true) ↔ s ^ L ≤ n)) := by
  constructor
  · intro l
    refine ⟨rfl, rfl, ?_⟩
    show (l.exhausted || _) = true ↔ _
    rw [Bool.or_eq_true, beq_iff_eq]
  · intro s L seed hs hL hseed n
    have hFP := fullPeriod_generate_a hs hL
    have ha : 1 + (generate_a s - 1) = generate_a s := by
      have := one_le_generate_a s
      omega
    have h := lcmIter_new_exhausted hFP hseed n
    rwa [ha] at h

/-- Witness for C4: a base-2, length-1 generator is exhausted after exactly
2 calls. -/
theorem c4_next_pre_update_and_exhaustion_timing_witness :
    (2 ≤ 2 ∧ 1 ≤ 1 ∧ 0 < 2 ^ 1) ∧
    (((lcmIter (LinearCongruentMultiplier.new 0 (2 ^ 1) 1 (generate_a 2))
      2).exhausted = true) ↔ 2 ^ 1 ≤ 2) :=
  ⟨by decide,
    c4_next_pre_update_and_exhaustion_timing.2 2 1 0 (by decide) (by decide)
      (by decide) 2⟩

/-! ## Claim C9 -/

open ShortCodeGenerator in
/-- C9 (code-bug evidence): `next_int` on a partitioned generator (skip
count 1, pending skip) produces printed output `["h0"]` — the stray
`println!` of `src/lib.rs` line 188 — contradicting the claim that
`next_code` performs no I/O. -/
theorem c9_next_int_prints :
    (⟨⟨0, 0, 10, 1, 3, false⟩, 0, [0], 1, ExhaustionStrategy.Cycle, none,
      some 1, true⟩ : ShortCodeGenerator Nat).next_int =
    some (1, ⟨⟨0, 4, 10, 1, 3, false⟩, 0, [0], 1, ExhaustionStrategy.Cycle, none,
      some 1, true⟩, ["h0"]) := by
  decide

/-! ## Claim C10 -/

open ShortCodeGenerator in
/-- C10: the three generation operations are interchangeable with respect
to state: `next_vec` is `next_int` followed by the base-`alphabet_size`
digit decomposition (same resulting state, same printed output), and
`next_string` is `next_vec` followed by packing the symbols into a string
(same resulting state, same printed output). -/
theorem c10_next_state_equivalence :
    (∀ (T : Type) [Inhabited T] (g : ShortCodeGenerator T),
      g.next_vec = (g.next_int).map (fun r =>
        (toDigitsWith r.2.1.alphabet g.alphabet.length r.2.1.length r.1,
          r.2.1, r.2.2)) ∧
      (g.next_vec).map (fun r => r.2.1) = (g.next_int).map (fun r => r.2.1)) ∧
    (∀ g : ShortCodeGenerator Char,
      g.next_string = (g.next_vec).map (fun r => (String.mk r.1, r.2.1, r.2.2)) ∧
      (g.next_string).map (fun r => r.2.1) = (g.next_vec).map (fun r => r.2.1)) := by
  constructor
  · intro T _ g
    rcases hint : g.next_int with _ | ⟨v, g', out⟩
    · constructor
      · unfold ShortCodeGenerator.next_vec
        simp only [hint, Option.map_none']
      · unfold ShortCodeGenerator.next_vec
        simp only [hint, Option.map_none']
    · constructor
      · unfold ShortCodeGenerator.next_vec
        simp only [hint, Option.map_some']
      · unfold ShortCodeGenerator.next_vec
        simp only [hint, Option.map_some']
  · intro g
    rcases hvec : g.next_vec with _ | ⟨w, g', out⟩
    · constructor
      · unfold ShortCodeGenerator.next_string
        simp only [hvec, Option.map_none']
      · unfold ShortCodeGenerator.next_string
        simp only [hvec, Option.map_none']
    · constructor
      · unfold ShortCodeGenerator.next_string
        simp only [hvec, Option.map_some']
      · unfold ShortCodeGenerator.next_string
        simp only [hvec, Option.map_some']

/-! ## Claim C8 -/

open ShortCodeGenerator in
/-- C8 (counterexample): an already-partitioned generator split into `n = 0`
partitions does not fail — the closure that checks the partition state is
never evaluated on an empty range, so the call returns an empty list. -/
theorem c8_zero_partitions_counterexample :
    (⟨⟨0, 0, 10, 1, 3, false⟩, 0, [0], 1, ExhaustionStrategy.Cycle, none,
      some 6, false⟩ : ShortCodeGenerator Nat).into_parallel_generators 0 =
      some [] := by
  decide

open ShortCodeGenerator in
/-- C8 (amended): for every `n ≥ 1`, splitting an already-partitioned
generator into `n` parallel generators fails with the partition-request
error (modelled as `none`); the source generator, being an input value of a
pure function, is unaffected. -/
theorem c8_partition_once {T : Type} (g : ShortCodeGenerator T) (n : Nat)
    (hpart : g.skip.isSome = true) (hn : 1 ≤ n) :
    g.into_parallel_generators n = none := by
  obtain ⟨n', rfl⟩ : ∃ n', n = n' + 1 := ⟨n - 1, by omega⟩
  unfold ShortCodeGenerator.into_parallel_generators
  rw [List.range_succ_eq_map, List.mapM_cons]
  simp [hpart]

open ShortCodeGenerator in
/-- Witness for C8 (amended) at a concrete partitioned generator, `n = 1`. -/
theorem c8_partition_once_witness :
    (⟨⟨0, 0, 10, 1, 3, false⟩, 0, [0], 1, ExhaustionStrategy.Cycle, none,
      some 6, false⟩ : ShortCodeGenerator Nat).skip.isSome = true ∧ 1 ≤ 1 ∧
    (⟨⟨0, 0, 10, 1, 3, false⟩, 0, [0], 1, ExhaustionStrategy.Cycle, none,
      some 6, false⟩ : ShortCodeGenerator Nat).into_parallel_generators 1 =
      none :=
  ⟨rfl, by decide,
    c8_partition_once (⟨⟨0, 0, 10, 1, 3, false⟩, 0, [0], 1,
      ExhaustionStrategy.Cycle, none, some 6, false⟩ : ShortCodeGenerator Nat) 1
      rfl (by decide)⟩

/-! ## Running a generator up to and into exhaustion -/

namespace ShortCodeGenerator

variable {T : Type}

/-- Evaluating `vecOutAt` from the run state and its next call. -/
theorem vecOutAt_some [Inhabited T] {g gn : ShortCodeGenerator T} {n : Nat}
    {w : List T} {g2 : ShortCodeGenerator T} {out : List String}
    (hit : iterVec n g = some gn) (hv : gn.next_vec = some (w, g2, out)) :
    vecOutAt g n = some w := by
  unfold vecOutAt
  rw [hit]
  simp only [hv, Option.map_some']

/-- `step` before exhaustion: no strategy acts, the call is `lcm.next()`. -/
theorem step_not_exhausted {g : ShortCodeGenerator T} (h : g.lcm.exhausted = false) :
    g.step = some ((g.lcm.next).1, { g with lcm := (g.lcm.next).2 }) := by
  unfold step
  simp [h]

/-- `step` at exhaustion under `Panic`: the call fails. -/
theorem step_panic {g : ShortCodeGenerator T}
    (hstrat : g.exhaustion_strategy = ExhaustionStrategy.Panic)
    (hexh : g.lcm.exhausted = true) : g.step = none := by
  unfold step
  simp [hexh, hstrat]

/-- `step` at exhaustion under `IncreaseLength` with a stored rng: the whole
generator is rebuilt via `with_alphabet_and_rng` with `length + 1` and the
stored rng; the partition configuration (`skip`, `skip_before_next`) is
preserved across the rebuild; then `lcm.next()` runs on the fresh state. -/
theorem step_increase {g : ShortCodeGenerator T} {r : ChaCha12Rng}
    (hexh : g.lcm.exhausted = true)
    (hstrat : g.exhaustion_strategy = ExhaustionStrategy.IncreaseLength)
    (hrng : g.rng = some r) :
    g.step = some
      (((with_alphabet_and_rng g.alphabet (g.length + 1) r).lcm.next).1,
        { with_alphabet_and_rng g.alphabet (g.length + 1) r with
            skip := g.skip
            skip_before_next := g.skip_before_next
            lcm := ((with_alphabet_and_rng g.alphabet (g.length + 1) r).lcm.next).2 }) := by
  unfold step
  simp [hexh, hstrat, hrng]

theorem next_int_none_of_step_none {g g1 : ShortCodeGenerator T} {out : List String}
    (hpre : g.nextIntPre = some (g1, out)) (hstep : g1.step = none) :
    g.next_int = none := by
  unfold next_int
  rw [hpre]
  simp [hstep]

theorem next_vec_none_of_int_none [Inhabited T] {g : ShortCodeGenerator T}
    (h : g.next_int = none) : g.next_vec = none := by
  unfold next_vec
  simp [h]

theorem iterVec_succ_none [Inhabited T] {g : ShortCodeGenerator T}
    (hv : g.next_vec = none) (n : Nat) : iterVec (n + 1) g = none := by
  simp only [iterVec, hv]

theorem iterVec_succ_some [Inhabited T] {g : ShortCodeGenerator T}
    {r : List T × ShortCodeGenerator T × List String} (hv : g.next_vec = some r)
    (n : Nat) : iterVec (n + 1) g = iterVec n r.2.1 := by
  simp only [iterVec, hv]

theorem iterVec_split [Inhabited T] :
    ∀ (x y : Nat) (g : ShortCodeGenerator T),
      iterVec (x + y) g = (iterVec x g).bind (fun h => iterVec y h) := by
  intro x
  induction x with
  | zero =>
    intro y g
    rw [Nat.zero_add]
    rfl
  | succ x ih =>
    intro y g
    rw [show x + 1 + y = (x + y) + 1 by omega]
    rcases hv : g.next_vec with _ | r
    · rw [iterVec_succ_none hv, iterVec_succ_none hv]
      rfl
    · rw [iterVec_succ_some hv, iterVec_succ_some hv, ih]

/-- One successful call of the run invariant: while `n < m`, any strategy's
generator behaves like the bare LCG, and the invariant advances. -/
theorem isRun_next_vec [Inhabited T] {alphabet : List T}
    {L off m a seed : Nat} {strat : ExhaustionStrategy} {rngv : Option ChaCha12Rng}
    {n : Nat} {g : ShortCodeGenerator T}
    (h : IsRun alphabet L off m a seed strat rngv n g)
    (hFP : FullPeriod m (a - 1)) (ha : 1 + (a - 1) = a) (hseed : seed < m)
    (hn : n < m) :
    g.next_vec = some
      (toDigitsWith alphabet alphabet.length L ((lcgIterate a m seed n + off) % m),
      { g with lcm := (g.lcm.next).2, skip_before_next := true }, []) ∧
    IsRun alphabet L off m a seed strat rngv (n + 1)
      ({ g with lcm := (g.lcm.next).2, skip_before_next := true }) := by
  have hexh : g.lcm.exhausted = false := by
    rw [h.exh, decide_eq_false_iff_not]
    omega
  have hret := lcg_return_iff hFP hseed (n + 1)
  rw [ha] at hret
  have hexh' : (g.lcm.exhausted || (((g.lcm.a * g.lcm.current + g.lcm.c) % g.lcm.m)
      == g.lcm.first)) = decide (m ≤ n + 1) := by
    rw [hexh, Bool.false_or, h.a_eq, h.c_eq, h.m_eq, h.cur, h.first_eq]
    have hx : (a * lcgIterate a m seed n + 1) % m = lcgIterate a m seed (n + 1) := by
      rw [lcgIterate_succ]
      rfl
    rw [hx]
    by_cases hcyc : lcgIterate a m seed (n + 1) = seed
    · have hd : m ∣ n + 1 := hret.1 hcyc
      have hle : m ≤ n + 1 := Nat.le_of_dvd (by omega) hd
      simp [hcyc, hle]
    · have hnle : ¬ m ≤ n + 1 := by
        intro hle
        have heq : m = n + 1 := by omega
        exact hcyc (hret.2 (heq ▸ dvd_rfl))
      simp [hcyc, hnle]
  have hint : g.next_int = some (((g.lcm.next).1 + g.offset) % g.lcm.m,
      { g with lcm := (g.lcm.next).2, skip_before_next := true }, []) :=
    next_int_of_pre_step (nextIntPre_of_skip_none h.skip_eq)
      (step_not_exhausted hexh)
  constructor
  · rw [next_vec_of_int hint]
    simp only [LinearCongruentMultiplier.next, h.alph, h.len, h.off_eq, h.m_eq, h.cur]
  · refine ⟨h.alph, h.len, h.off_eq, h.strat_eq, h.skip_eq, h.rng_eq, h.first_eq,
      h.m_eq, h.a_eq, h.c_eq, ?_, ?_⟩
    · show (g.lcm.a * g.lcm.current + g.lcm.c) % g.lcm.m = _
      rw [h.a_eq, h.c_eq, h.m_eq, h.cur, lcgIterate_succ]
      rfl
    · exact hexh'

/-- Running the invariant for `c` calls, as long as the run stays inside the
period. -/
theorem isRun_iterVec [Inhabited T] {alphabet : List T}
    {L off m a seed : Nat} {strat : ExhaustionStrategy} {rngv : Option ChaCha12Rng}
    (hFP : FullPeriod m (a - 1)) (ha : 1 + (a - 1) = a) (hseed : seed < m) :
    ∀ (c n0 : Nat) (g : ShortCodeGenerator T),
      IsRun alphabet L off m a seed strat rngv n0 g → n0 + c ≤ m →
      ∃ gn, iterVec c g = some gn ∧
        IsRun alphabet L off m a seed strat rngv (n0 + c) gn := by
  intro c
  induction c with
  | zero => intro n0 g h _; exact ⟨g, rfl, h⟩
  | succ c ih =>
    intro n0 g h hle
    obtain ⟨hvec, hinv⟩ := isRun_next_vec h hFP ha hseed (by omega)
    obtain ⟨gn, hit, hinv'⟩ := ih (n0 + 1) _ hinv (by omega)
    refine ⟨gn, ?_, by rwa [show n0 + (c + 1) = n0 + 1 + c by omega]⟩
    show iterVec (c + 1) g = some gn
    unfold iterVec
    rw [hvec]
    exact hit

/-- The run invariant holds at call 0 for a freshly constructed generator. -/
theorem isRun_init (alphabet : List T) (L : Nat) (rng : ChaCha12Rng)
    (hm : 0 < alphabet.length ^ L) :
    IsRun alphabet L (rng.stream.tail.headD 0 % alphabet.length ^ L)
      (alphabet.length ^ L) (generate_a alphabet.length)
      (rng.stream.headD 0 % alphabet.length ^ L)
      ExhaustionStrategy.IncreaseLength (some ⟨rng.stream.tail.tail⟩) 0
      (with_alphabet_and_rng alphabet L rng) :=
  ⟨rfl, rfl, rfl, rfl, rfl, rfl, rfl, rfl, rfl, rfl, rfl, by
    show false = decide (alphabet.length ^ L ≤ 0)
    symm
    rw [decide_eq_false_iff_not]
    omega⟩

/-- The run invariant at call 0 for a fresh generator with a strategy set via
the builder. -/
theorem isRun_init_strategy (alphabet : List T) (L : Nat) (rng : ChaCha12Rng)
    (strat : ExhaustionStrategy) (hm : 0 < alphabet.length ^ L) :
    IsRun alphabet L (rng.stream.tail.headD 0 % alphabet.length ^ L)
      (alphabet.length ^ L) (generate_a alphabet.length)
      (rng.stream.headD 0 % alphabet.length ^ L)
      strat (some ⟨rng.stream.tail.tail⟩) 0
      ((with_alphabet_and_rng alphabet L rng).set_exhaustion_strategy strat) :=
  ⟨rfl, rfl, rfl, rfl, rfl, rfl, rfl, rfl, rfl, rfl, rfl, by
    show false = decide (alphabet.length ^ L ≤ 0)
    symm
    rw [decide_eq_false_iff_not]
    omega⟩

end ShortCodeGenerator

/-! ## Claim C6 -/

open ShortCodeGenerator in
/-- C6: under the `Panic` strategy, a fresh generator over
`m = alphabet_size ^ code_length` codes succeeds on its first `m` calls to
`next_vec` and fails on the call that would cycle — the `(m+1)`-th call
(0-based index `m`) — and never before; the failure is irrecoverable: every
later call fails as well. -/
theorem c6_panic_exactly_at_cycle {T : Type} [Inhabited T]
    (alphabet : List T) (L : Nat) (rng : ChaCha12Rng)
    (hs : 2 ≤ alphabet.length) (hL : 1 ≤ L) (g : ShortCodeGenerator T)
    (hg : g = (with_alphabet_and_rng alphabet L rng).set_exhaustion_strategy
      ExhaustionStrategy.Panic) :
    (∀ c, c < alphabet.length ^ L → (vecOutAt g c).isSome = true) ∧
    (∀ c, alphabet.length ^ L ≤ c → vecOutAt g c = none) := by
  subst hg
  have hm : 0 < alphabet.length ^ L := Nat.pos_pow_of_pos L (by omega)
  have hFP : FullPeriod (alphabet.length ^ L) (generate_a alphabet.length - 1) :=
    fullPeriod_generate_a hs hL
  have ha : 1 + (generate_a alphabet.length - 1) = generate_a alphabet.length := by
    have := one_le_generate_a alphabet.length
    omega
  have hseed : rng.stream.headD 0 % alphabet.length ^ L < alphabet.length ^ L :=
    Nat.mod_lt _ hm
  have h0 := isRun_init_strategy alphabet L rng ExhaustionStrategy.Panic hm
  constructor
  · intro c hc
    obtain ⟨gc, hit, hinv⟩ := isRun_iterVec hFP ha hseed c 0 _ h0 (by omega)
    rw [Nat.zero_add] at hinv
    obtain ⟨hvec, -⟩ := isRun_next_vec hinv hFP ha hseed (by omega)
    rw [vecOutAt_some hit hvec]
    rfl
  · intro c hc
    obtain ⟨gm, hit, hinv⟩ := isRun_iterVec hFP ha hseed (alphabet.length ^ L) 0 _ h0 (by omega)
    rw [Nat.zero_add] at hinv
    have hexh : gm.lcm.exhausted = true := by
      rw [hinv.exh]
      simp
    have hstep : ({ gm with skip_before_next := true } :
        ShortCodeGenerator T).step = none :=
      step_panic hinv.strat_eq hexh
    have hnone : gm.next_vec = none :=
      next_vec_none_of_int_none
        (next_int_none_of_step_none (nextIntPre_of_skip_none hinv.skip_eq) hstep)
    obtain ⟨d, rfl⟩ : ∃ d, c = alphabet.length ^ L + d :=
      ⟨c - alphabet.length ^ L, by omega⟩
    rcases Nat.eq_zero_or_pos d with rfl | hd
    · unfold vecOutAt
      rw [Nat.add_zero, hit]
      simp only [hnone, Option.map_none']
    · obtain ⟨d', rfl⟩ : ∃ d', d = d' + 1 := ⟨d - 1, by omega⟩
      have hiter : iterVec (alphabet.length ^ L + (d' + 1))
          ((with_alphabet_and_rng alphabet L rng).set_exhaustion_strategy
            ExhaustionStrategy.Panic) = none := by
        rw [iterVec_split, hit]
        show iterVec (d' + 1) gm = none
        exact iterVec_succ_none hnone d'
      unfold vecOutAt
      rw [hiter]

open ShortCodeGenerator in
/-- Witness for C6: the binary length-1 `Panic` generator fails on its
3rd call (0-based index 2). -/
theorem c6_panic_exactly_at_cycle_witness :
    2 ≤ ([0, 1] : List Nat).length ∧ 1 ≤ 1 ∧
    vecOutAt ((with_alphabet_and_rng ([0, 1] : List Nat) 1
      ⟨[]⟩).set_exhaustion_strategy ExhaustionStrategy.Panic) 2 = none :=
  ⟨by decide, by decide,
    (c6_panic_exactly_at_cycle ([0, 1] : List Nat) 1 ⟨[]⟩ (by decide) (by decide)
      _ rfl).2 2 (by decide)⟩

/-! ## Claim C7 -/

open ShortCodeGenerator in
/-- C7: when `IncreaseLength` fires on the call after exhaustion, the
generator is rebuilt by `with_alphabet_and_rng` with `code_length + 1`,
drawing a fresh seed and offset from the stored seed source; the alphabet
is carried over unchanged and the partition configuration (`skip`,
`skip_before_next`) is preserved, while all other fields come from the
rebuild.  In particular a length-2 base-10 generator (`m = 100`) returns
length-2 codes on its first 100 calls and a length-3 code on its 101st. -/
theorem c7_increase_length_rebuild {T : Type} [Inhabited T]
    (alphabet : List T) (rng : ChaCha12Rng) (hlen : alphabet.length = 10)
    (g : ShortCodeGenerator T) (hg : g = with_alphabet_and_rng alphabet 2 rng) :
    (∀ (g' : ShortCodeGenerator T) (r : ChaCha12Rng),
      g'.lcm.exhausted = true →
      g'.exhaustion_strategy = ExhaustionStrategy.IncreaseLength →
      g'.rng = some r →
      g'.step = some
        (((with_alphabet_and_rng g'.alphabet (g'.length + 1) r).lcm.next).1,
          { with_alphabet_and_rng g'.alphabet (g'.length + 1) r with
              skip := g'.skip
              skip_before_next := g'.skip_before_next
              lcm := ((with_alphabet_and_rng g'.alphabet (g'.length + 1) r).lcm.next).2 })) ∧
    (∀ c, c < 100 → ∃ w, vecOutAt g c = some w ∧ w.length = 2) ∧
    (∃ w, vecOutAt g 100 = some w ∧ w.length = 3) := by
  subst hg
  have hm100 : alphabet.length ^ 2 = 100 := by rw [hlen]; rfl
  have hm : 0 < alphabet.length ^ 2 := by omega
  have hFP : FullPeriod (alphabet.length ^ 2) (generate_a alphabet.length - 1) :=
    fullPeriod_generate_a (by omega) (by omega)
  have ha : 1 + (generate_a alphabet.length - 1) = generate_a alphabet.length := by
    have := one_le_generate_a alphabet.length
    omega
  have hseed : rng.stream.headD 0 % alphabet.length ^ 2 < alphabet.length ^ 2 :=
    Nat.mod_lt _ hm
  have h0 := isRun_init alphabet 2 rng hm
  refine ⟨fun g' r h1 h2 h3 => step_increase h1 h2 h3, ?_, ?_⟩
  · intro c hc
    obtain ⟨gc, hit, hinv⟩ := isRun_iterVec hFP ha hseed c 0 _ h0 (by omega)
    rw [Nat.zero_add] at hinv
    obtain ⟨hvec, -⟩ := isRun_next_vec hinv hFP ha hseed (by omega)
    exact ⟨_, vecOutAt_some hit hvec, toDigitsWith_length _ _ _ _⟩
  · obtain ⟨gm, hit, hinv⟩ := isRun_iterVec hFP ha hseed 100 0 _ h0 (by omega)
    rw [Nat.zero_add] at hinv
    have hexh : gm.lcm.exhausted = true := by
      rw [hinv.exh, hm100]
      decide
    have hstep := step_increase (g := { gm with skip_before_next := true })
      (r := ⟨rng.stream.tail.tail⟩) hexh hinv.strat_eq hinv.rng_eq
    have hint := next_int_of_pre_step (nextIntPre_of_skip_none hinv.skip_eq) hstep
    have hvec := next_vec_of_int hint
    refine ⟨_, vecOutAt_some hit hvec, ?_⟩
    rw [toDigitsWith_length]
    show gm.length + 1 = 3
    rw [hinv.len]

open ShortCodeGenerator in
/-- Witness for C7: the general rebuild characterization at a concrete
exhausted generator holding a stored rng. -/
theorem c7_increase_length_rebuild_witness :
    (⟨⟨0, 0, 100, 1, 21, true⟩, 5, [0, 1, 2, 3, 4, 5, 6, 7, 8, 9], 2,
      ExhaustionStrategy.IncreaseLength, some ⟨[]⟩, none, false⟩ :
        ShortCodeGenerator Nat).step = some
      (((with_alphabet_and_rng
          (⟨⟨0, 0, 100, 1, 21, true⟩, 5, [0, 1, 2, 3, 4, 5, 6, 7, 8, 9], 2,
            ExhaustionStrategy.IncreaseLength, some ⟨[]⟩, none, false⟩ :
              ShortCodeGenerator Nat).alphabet
          ((⟨⟨0, 0, 100, 1, 21, true⟩, 5, [0, 1, 2, 3, 4, 5, 6, 7, 8, 9], 2,
            ExhaustionStrategy.IncreaseLength, some ⟨[]⟩, none, false⟩ :
              ShortCodeGenerator Nat).length + 1) ⟨[]⟩).lcm.next).1,
        { with_alphabet_and_rng
            (⟨⟨0, 0, 100, 1, 21, true⟩, 5, [0, 1, 2, 3, 4, 5, 6, 7, 8, 9], 2,
              ExhaustionStrategy.IncreaseLength, some ⟨[]⟩, none, false⟩ :
                ShortCodeGenerator Nat).alphabet
            ((⟨⟨0, 0, 100, 1, 21, true⟩, 5, [0, 1, 2, 3, 4, 5, 6, 7, 8, 9], 2,
              ExhaustionStrategy.IncreaseLength, some ⟨[]⟩, none, false⟩ :
                ShortCodeGenerator Nat).length + 1) ⟨[]⟩ with
            skip := (⟨⟨0, 0, 100, 1, 21, true⟩, 5, [0, 1, 2, 3, 4, 5, 6, 7, 8, 9], 2,
              ExhaustionStrategy.IncreaseLength, some ⟨[]⟩, none, false⟩ :
                ShortCodeGenerator Nat).skip
            skip_before_next :=
              (⟨⟨0, 0, 100, 1, 21, true⟩, 5, [0, 1, 2, 3, 4, 5, 6, 7, 8, 9], 2,
                ExhaustionStrategy.IncreaseLength, some ⟨[]⟩, none, false⟩ :
                  ShortCodeGenerator Nat).skip_before_next
            lcm := ((with_alphabet_and_rng
              (⟨⟨0, 0, 100, 1, 21, true⟩, 5, [0, 1, 2, 3, 4, 5, 6, 7, 8, 9], 2,
                ExhaustionStrategy.IncreaseLength, some ⟨[]⟩, none, false⟩ :
                  ShortCodeGenerator Nat).alphabet
              ((⟨⟨0, 0, 100, 1, 21, true⟩, 5, [0, 1, 2, 3, 4, 5, 6, 7, 8, 9], 2,
                ExhaustionStrategy.IncreaseLength, some ⟨[]⟩, none, false⟩ :
                  ShortCodeGenerator Nat).length + 1) ⟨[]⟩).lcm.next).2 }) :=
  (c7_increase_length_rebuild [0, 1, 2, 3, 4, 5, 6, 7, 8, 9] ⟨[]⟩ (by decide)
    _ rfl).1
    (⟨⟨0, 0, 100, 1, 21, true⟩, 5, [0, 1, 2, 3, 4, 5, 6, 7, 8, 9], 2,
      ExhaustionStrategy.IncreaseLength, some ⟨[]⟩, none, false⟩ :
        ShortCodeGenerator Nat) ⟨[]⟩ rfl rfl rfl

/-! ## Partitioning: the underlying step stream

`step` never reads or writes `skip` / `skip_before_next` (the rebuild
explicitly restores them), so every generator runs over the
partition-free stream `stepIter _ (eraseP g)`. -/

namespace ShortCodeGenerator

variable {T : Type}

theorem eraseP_set (g : ShortCodeGenerator T) :
    ({ eraseP g with skip := g.skip, skip_before_next := g.skip_before_next } :
      ShortCodeGenerator T) = g := by
  cases g
  rfl

theorem eraseP_idem (g : ShortCodeGenerator T) : eraseP (eraseP g) = eraseP g := rfl

/-- `step` commutes with overwriting the partition configuration. -/
theorem step_set_skip (g : ShortCodeGenerator T) (sk : Option Nat) (b : Bool) :
    ({ g with skip := sk, skip_before_next := b } : ShortCodeGenerator T).step =
      (g.step).map (fun r => (r.1, { r.2 with skip := sk, skip_before_next := b })) := by
  unfold step
  rcases hexh : g.lcm.exhausted with _ | _
  · simp [hexh]
  · cases hstrat : g.exhaustion_strategy with
    | Cycle => simp [hexh, hstrat]
    | Panic => simp [hexh, hstrat]
    | IncreaseLength =>
      cases hrng : g.rng with
      | none => simp [hexh, hstrat, hrng]
      | some r => simp [hexh, hstrat, hrng]

/-- Normal form: any `step` is a `step` of the partition-free generator
with the partition configuration restored afterwards. -/
theorem step_eq_eraseP (g : ShortCodeGenerator T) :
    g.step = ((eraseP g).step).map (fun r =>
      (r.1, { r.2 with skip := g.skip, skip_before_next := g.skip_before_next })) := by
  conv_lhs => rw [← eraseP_set g]
  exact step_set_skip (eraseP g) g.skip g.skip_before_next

theorem step_eraseP_erased {g : ShortCodeGenerator T}
    {r : Nat × ShortCodeGenerator T} (hs : (eraseP g).step = some r) :
    eraseP r.2 = r.2 := by
  have h := step_eq_eraseP (eraseP g)
  rw [eraseP_idem, hs] at h
  have h2 := Option.some.inj h
  show ({ r.2 with skip := none, skip_before_next := false } :
    ShortCodeGenerator T) = r.2
  exact (congrArg Prod.snd h2).symm

theorem step_alphabet {g : ShortCodeGenerator T} {r : Nat × ShortCodeGenerator T}
    (hs : g.step = some r) : r.2.alphabet = g.alphabet := by
  unfold step at hs
  rcases hexh : g.lcm.exhausted with _ | _ <;> rw [hexh] at hs
  · simp at hs
    subst hs
    rfl
  · cases hstrat : g.exhaustion_strategy with
    | Cycle =>
      rw [hstrat] at hs
      simp at hs
      subst hs
      rfl
    | Panic =>
      rw [hstrat] at hs
      simp at hs
    | IncreaseLength =>
      rw [hstrat] at hs
      cases hrng : g.rng with
      | none =>
        rw [hrng] at hs
        simp at hs
      | some r0 =>
        rw [hrng] at hs
        simp at hs
        subst hs
        rfl

theorem stepIter_succ_none {g : ShortCodeGenerator T} (hv : g.step = none)
    (n : Nat) : stepIter (n + 1) g = none := by
  simp only [stepIter, hv]

theorem stepIter_succ_some {g : ShortCodeGenerator T}
    {r : Nat × ShortCodeGenerator T} (hv : g.step = some r) (n : Nat) :
    stepIter (n + 1) g = stepIter n r.2 := by
  simp only [stepIter, hv]

theorem stepIter_split :
    ∀ (x y : Nat) (g : ShortCodeGenerator T),
      stepIter (x + y) g = (stepIter x g).bind (fun h => stepIter y h) := by
  intro x
  induction x with
  | zero =>
    intro y g
    rw [Nat.zero_add]
    rfl
  | succ x ih =>
    intro y g
    rw [show x + 1 + y = (x + y) + 1 by omega]
    rcases hv : g.step with _ | r
    · rw [stepIter_succ_none hv, stepIter_succ_none hv]
      rfl
    · rw [stepIter_succ_some hv, stepIter_succ_some hv, ih]

theorem stepIter_none_mono {g : ShortCodeGenerator T} {p p' : Nat}
    (h : stepIter p g = none) (hle : p ≤ p') : stepIter p' g = none := by
  obtain ⟨d, rfl⟩ : ∃ d, p' = p + d := ⟨p' - p, by omega⟩
  rw [stepIter_split, h]
  rfl

theorem stepIter_erased :
    ∀ (k : Nat) (g h : ShortCodeGenerator T),
      stepIter k (eraseP g) = some h → eraseP h = h := by
  intro k
  induction k with
  | zero =>
    intro g h hs
    have := Option.some.inj hs
    rw [← this]
    exact eraseP_idem g
  | succ k ih =>
    intro g h hs
    rcases hv : (eraseP g).step with _ | r
    · rw [stepIter_succ_none hv] at hs
      exact absurd hs (by simp)
    · rw [stepIter_succ_some hv] at hs
      have her := step_eraseP_erased hv
      rw [← her] at hs
      exact ih r.2 h hs

/-- The skip loop discards `k` positions of the partition-free stream and
prints `k` lines. -/
theorem skipLoop_core :
    ∀ (k : Nat) (h : ShortCodeGenerator T) (g : ShortCodeGenerator T), eraseP g = h →
      skipLoop k g = (stepIter k h).map (fun q =>
        ({ q with skip := g.skip, skip_before_next := g.skip_before_next },
          List.replicate k "h0")) := by
  intro k
  induction k with
  | zero =>
    intro h g heq
    subst heq
    show some (g, []) = some
      ({ eraseP g with skip := g.skip, skip_before_next := g.skip_before_next },
        List.replicate 0 "h0")
    rw [eraseP_set]
    rfl
  | succ k ih =>
    intro h g heq
    subst heq
    rcases hv : (eraseP g).step with _ | r
    · have hg : g.step = none := by
        rw [step_eq_eraseP, hv]
        rfl
      simp only [skipLoop, hg]
      rw [stepIter_succ_none hv]
      rfl
    · have hg : g.step = some
          (r.1, { r.2 with skip := g.skip, skip_before_next := g.skip_before_next }) := by
        rw [step_eq_eraseP, hv]
        rfl
      have her :
          eraseP ({ r.2 with skip := g.skip, skip_before_next := g.skip_before_next } :
            ShortCodeGenerator T) = r.2 := by
        show ({ r.2 with skip := none, skip_before_next := false } :
          ShortCodeGenerator T) = r.2
        exact step_eraseP_erased hv
      have hloop := ih r.2
        ({ r.2 with skip := g.skip, skip_before_next := g.skip_before_next }) her
      simp only [skipLoop, hg, hloop]
      rw [stepIter_succ_some hv]
      rcases hit : stepIter k r.2 with _ | h2
      · rfl
      · simp [List.replicate_succ]

/-- `next_vec` of an unpartitioned generator: one step of the partition-free
stream, no printed lines. -/
theorem next_vec_skip_none_core [Inhabited T] {g : ShortCodeGenerator T}
    (hskip : g.skip = none) :
    g.next_vec = ((eraseP g).step).map (fun r =>
      (toDigitsWith r.2.alphabet g.alphabet.length r.2.length
        ((r.1 + r.2.offset) % r.2.lcm.m),
        { r.2 with skip := none, skip_before_next := true },
        ([] : List String))) := by
  have hpre := nextIntPre_of_skip_none hskip
  have her : eraseP ({ g with skip_before_next := true } : ShortCodeGenerator T) =
      eraseP g := rfl
  rcases hv : (eraseP g).step with _ | r
  · have hstep : ({ g with skip_before_next := true } :
        ShortCodeGenerator T).step = none := by
      rw [step_eq_eraseP, her, hv]
      rfl
    rw [next_vec_none_of_int_none (next_int_none_of_step_none hpre hstep)]
    rfl
  · have hstep : ({ g with skip_before_next := true } :
        ShortCodeGenerator T).step = some
        (r.1, { r.2 with skip := g.skip, skip_before_next := true }) := by
      rw [step_eq_eraseP, her, hv]
      rfl
    have hint := next_int_of_pre_step hpre hstep
    rw [next_vec_of_int hint]
    simp [hskip]

/-- `next_vec` of a partitioned generator past its first call: `k` discarded
positions, one producing step, `k` printed lines. -/
theorem next_vec_skip_core [Inhabited T] {g : ShortCodeGenerator T} {k : Nat}
    (hskip : g.skip = some k) (hsbn : g.skip_before_next = true) :
    g.next_vec = ((stepIter k (eraseP g)).bind (fun h =>
      (h.step).map (fun r =>
        (toDigitsWith r.2.alphabet g.alphabet.length r.2.length
          ((r.1 + r.2.offset) % r.2.lcm.m),
          { r.2 with skip := some k, skip_before_next := true },
          List.replicate k "h0")))) := by
  have hpre : g.nextIntPre = skipLoop k g := by
    unfold nextIntPre
    simp [hsbn, hskip]
  have hloop := skipLoop_core k (eraseP g) g rfl
  rcases hit : stepIter k (eraseP g) with _ | h
  · have hpn : g.nextIntPre = none := by
      rw [hpre, hloop, hit]
      rfl
    have hin : g.next_int = none := by
      unfold next_int
      rw [hpn]
    rw [next_vec_none_of_int_none hin]
    rfl
  · have hpn : g.nextIntPre =
        some ({ h with skip := some k, skip_before_next := true },
          List.replicate k "h0") := by
      rw [hpre, hloop, hit]
      simp [hskip, hsbn]
    have her : eraseP ({ h with skip := some k, skip_before_next := true } :
        ShortCodeGenerator T) = h := by
      show ({ h with skip := none, skip_before_next := false } :
        ShortCodeGenerator T) = h
      exact stepIter_erased k g h hit
    rcases hsv : h.step with _ | r
    · have hstep : ({ h with skip := some k, skip_before_next := true } :
          ShortCodeGenerator T).step = none := by
        rw [step_eq_eraseP, her, hsv]
        rfl
      rw [next_vec_none_of_int_none (next_int_none_of_step_none hpn hstep)]
      simp [hsv]
    · have hstep : ({ h with skip := some k, skip_before_next := true } :
          ShortCodeGenerator T).step = some
          (r.1, { r.2 with skip := some k, skip_before_next := true }) := by
        rw [step_eq_eraseP, her, hsv]
        rfl
      have hint := next_int_of_pre_step hpn hstep
      rw [next_vec_of_int hint]
      simp [hsv]

theorem stepIter_alphabet :
    ∀ (k : Nat) (g h : ShortCodeGenerator T),
      stepIter k g = some h → h.alphabet = g.alphabet := by
  intro k
  induction k with
  | zero =>
    intro g h hs
    rw [← Option.some.inj hs]
  | succ k ih =>
    intro g h hs
    rcases hv : g.step with _ | r
    · rw [stepIter_succ_none hv] at hs
      exact absurd hs (by simp)
    · rw [stepIter_succ_some hv] at hs
      rw [ih r.2 h hs, step_alphabet hv]

/-- `next_vec` before the first call (`skip_before_next` unset): the skip
loop does not run even on a partitioned generator. -/
theorem next_vec_sbn_false_core [Inhabited T] {g : ShortCodeGenerator T}
    (hsbn : g.skip_before_next = false) :
    g.next_vec = ((eraseP g).step).map (fun r =>
      (toDigitsWith r.2.alphabet g.alphabet.length r.2.length
        ((r.1 + r.2.offset) % r.2.lcm.m),
        { r.2 with skip := g.skip, skip_before_next := true },
        ([] : List String))) := by
  have hpre : g.nextIntPre = some ({ g with skip_before_next := true }, []) := by
    unfold nextIntPre
    simp [hsbn]
  have her : eraseP ({ g with skip_before_next := true } : ShortCodeGenerator T) =
      eraseP g := rfl
  rcases hv : (eraseP g).step with _ | r
  · have hstep : ({ g with skip_before_next := true } :
        ShortCodeGenerator T).step = none := by
      rw [step_eq_eraseP, her, hv]
      rfl
    rw [next_vec_none_of_int_none (next_int_none_of_step_none hpre hstep)]
    rfl
  · have hstep : ({ g with skip_before_next := true } :
        ShortCodeGenerator T).step = some
        (r.1, { r.2 with skip := g.skip, skip_before_next := true }) := by
      rw [step_eq_eraseP, her, hv]
      rfl
    have hint := next_int_of_pre_step hpre hstep
    rw [next_vec_of_int hint]
    simp

/-- The run of an unpartitioned generator projects onto the partition-free
stream, and stays unpartitioned. -/
theorem orig_run [Inhabited T] {g0 : ShortCodeGenerator T} (hskip : g0.skip = none) :
    ∀ t, (iterVec t g0).map eraseP = stepIter t (eraseP g0) ∧
      (∀ gt, iterVec t g0 = some gt → gt.skip = none) := by
  intro t
  induction t with
  | zero =>
    refine ⟨rfl, fun gt h => ?_⟩
    rw [← Option.some.inj h]
    exact hskip
  | succ t ih =>
    obtain ⟨ihm, ihs⟩ := ih
    rcases hgt : iterVec t g0 with _ | gt
    · have hst : stepIter t (eraseP g0) = none := by
        rw [← ihm, hgt]
        rfl
      constructor
      · rw [show t + 1 = t + 1 from rfl, iterVec_split t 1, hgt,
          stepIter_split t 1, hst]
        rfl
      · intro gt' h
        rw [iterVec_split t 1, hgt] at h
        exact absurd h (by simp)
    · have hst : stepIter t (eraseP g0) = some (eraseP gt) := by
        rw [← ihm, hgt]
        rfl
      have hskt : gt.skip = none := ihs gt hgt
      have hnv := next_vec_skip_none_core hskt
      rcases hsv : (eraseP gt).step with _ | r
      · have hnone : gt.next_vec = none := by
          rw [hnv, hsv]
          rfl
        constructor
        · rw [iterVec_split t 1, hgt, stepIter_split t 1, hst]
          show (iterVec 1 gt).map eraseP = stepIter 1 (eraseP gt)
          rw [iterVec_succ_none hnone 0, stepIter_succ_none hsv 0]
          rfl
        · intro gt' h
          rw [iterVec_split t 1, hgt] at h
          have h1 : iterVec 1 gt = some gt' := h
          rw [iterVec_succ_none hnone 0] at h1
          exact absurd h1 (by simp)
      · have hsome : gt.next_vec = some
            (toDigitsWith r.2.alphabet gt.alphabet.length r.2.length
              ((r.1 + r.2.offset) % r.2.lcm.m),
              { r.2 with skip := none, skip_before_next := true }, []) := by
          rw [hnv, hsv]
          rfl
        have herq : eraseP ({ r.2 with skip := none, skip_before_next := true } :
            ShortCodeGenerator T) = r.2 := by
          show ({ r.2 with skip := none, skip_before_next := false } :
            ShortCodeGenerator T) = r.2
          exact step_eraseP_erased hsv
        constructor
        · rw [iterVec_split t 1, hgt, stepIter_split t 1, hst]
          show (iterVec 1 gt).map eraseP = stepIter 1 (eraseP gt)
          rw [iterVec_succ_some hsome 0, stepIter_succ_some hsv 0]
          show some (eraseP ({ r.2 with skip := none, skip_before_next := true } :
            ShortCodeGenerator T)) = some r.2
          rw [herq]
        · intro gt' h
          rw [iterVec_split t 1, hgt] at h
          have h1 : iterVec 1 gt = some gt' := h
          rw [iterVec_succ_some hsome 0] at h1
          have := Option.some.inj h1
          rw [← this]

/-- Every output of an unpartitioned generator is the corresponding element
of the partition-free stream. -/
theorem orig_vecOutAt [Inhabited T] {g0 : ShortCodeGenerator T}
    (hskip : g0.skip = none) (t : Nat) : vecOutAt g0 t = coreVec g0 t := by
  obtain ⟨ihm, ihs⟩ := orig_run hskip t
  rcases hgt : iterVec t g0 with _ | gt
  · have hst : stepIter t (eraseP g0) = none := by
      rw [← ihm, hgt]
      rfl
    unfold vecOutAt coreVec
    rw [hgt, hst]
    rfl
  · have hst : stepIter t (eraseP g0) = some (eraseP gt) := by
      rw [← ihm, hgt]
      rfl
    have hskt := ihs gt hgt
    unfold vecOutAt coreVec
    rw [hgt, hst]
    show (gt.next_vec).map (fun r => r.1) =
      ((eraseP gt).step).map (fun r =>
        toDigitsWith r.2.alphabet (eraseP gt).alphabet.length r.2.length
          ((r.1 + r.2.offset) % r.2.lcm.m))
    rw [next_vec_skip_none_core hskt]
    rcases hsv : (eraseP gt).step with _ | r
    · rfl
    · rfl

/-- State invariant for a partition's run: a partition that sits at stream
position `j` with `skip = some (n - 1)` and `skip_before_next` unset is, after
`c + 1` calls, at stream position `j + 1 + c * n`, partitioned the same way
with `skip_before_next` set. -/
theorem part_aux [Inhabited T] {g0 P : ShortCodeGenerator T} {n j : Nat}
    (hn : 1 ≤ n)
    (hPj : stepIter j (eraseP g0) = some (eraseP P))
    (hPskip : P.skip = some (n - 1)) (hPsbn : P.skip_before_next = false) :
    ∀ c, (∀ q, iterVec (c + 1) P = some q →
        q.skip = some (n - 1) ∧ q.skip_before_next = true ∧
        stepIter (j + 1 + c * n) (eraseP g0) = some (eraseP q)) ∧
      (iterVec (c + 1) P = none →
        stepIter (j + 1 + c * n) (eraseP g0) = none) := by
  intro c
  induction c with
  | zero =>
    have hnv := next_vec_sbn_false_core hPsbn
    rcases hs1 : (eraseP P).step with _ | r
    · have hnvn : P.next_vec = none := by
        rw [hnv, hs1]
        rfl
      constructor
      · intro q hq
        rw [iterVec_succ_none hnvn 0] at hq
        exact absurd hq (by simp)
      · intro _
        have hidx : j + 1 + 0 * n = j + 1 := by omega
        rw [hidx, stepIter_split j 1, hPj]
        show stepIter 1 (eraseP P) = none
        exact stepIter_succ_none hs1 0
    · have hnvs : P.next_vec = some
          (toDigitsWith r.2.alphabet P.alphabet.length r.2.length
            ((r.1 + r.2.offset) % r.2.lcm.m),
            { r.2 with skip := P.skip, skip_before_next := true },
            ([] : List String)) := by
        rw [hnv, hs1]
        rfl
      have her : eraseP ({ r.2 with skip := P.skip, skip_before_next := true } :
          ShortCodeGenerator T) = r.2 := by
        show ({ r.2 with skip := none, skip_before_next := false } :
          ShortCodeGenerator T) = r.2
        exact step_eraseP_erased hs1
      constructor
      · intro q hq
        rw [iterVec_succ_some hnvs 0] at hq
        have hqe := Option.some.inj hq
        subst hqe
        refine ⟨?_, rfl, ?_⟩
        · show P.skip = some (n - 1)
          exact hPskip
        · have hidx : j + 1 + 0 * n = j + 1 := by omega
          rw [hidx, stepIter_split j 1, hPj]
          show stepIter 1 (eraseP P) = some
            (eraseP ({ r.2 with skip := P.skip, skip_before_next := true } :
              ShortCodeGenerator T))
          rw [stepIter_succ_some hs1 0]
          show some r.2 = some
            (eraseP ({ r.2 with skip := P.skip, skip_before_next := true } :
              ShortCodeGenerator T))
          rw [her]
      · intro hq
        rw [iterVec_succ_some hnvs 0] at hq
        exact Option.noConfusion hq
  | succ c ih =>
    obtain ⟨ihm, ihn⟩ := ih
    rcases hq : iterVec (c + 1) P with _ | q
    · have hdead : stepIter (j + 1 + c * n) (eraseP g0) = none := ihn hq
      have hnone2 : iterVec (c + 1 + 1) P = none := by
        rw [iterVec_split (c + 1) 1, hq]
        rfl
      constructor
      · intro q' hq'
        rw [hnone2] at hq'
        exact absurd hq' (by simp)
      · intro _
        refine stepIter_none_mono hdead ?_
        rw [Nat.succ_mul]
        omega
    · obtain ⟨hqs, hqb, hqp⟩ := ihm q hq
      have hnv := next_vec_skip_core hqs hqb
      have hglob : stepIter (j + 1 + c * n + (n - 1)) (eraseP g0) =
          stepIter (n - 1) (eraseP q) := by
        rw [stepIter_split (j + 1 + c * n) (n - 1), hqp]
        rfl
      rcases hsk : stepIter (n - 1) (eraseP q) with _ | h
      · have hnvn : q.next_vec = none := by
          rw [hnv, hsk]
          rfl
        have hnone2 : iterVec (c + 1 + 1) P = none := by
          rw [iterVec_split (c + 1) 1, hq]
          show iterVec 1 q = none
          exact iterVec_succ_none hnvn 0
        have hdeadg : stepIter (j + 1 + c * n + (n - 1)) (eraseP g0) = none := by
          rw [hglob, hsk]
        constructor
        · intro q' hq'
          rw [hnone2] at hq'
          exact absurd hq' (by simp)
        · intro _
          refine stepIter_none_mono hdeadg ?_
          rw [Nat.succ_mul]
          omega
      · have hhe : eraseP h = h := stepIter_erased (n - 1) q h hsk
        rcases hsh : h.step with _ | r
        · have hnvn : q.next_vec = none := by
            rw [hnv, hsk]
            show (h.step).map _ = none
            rw [hsh]
            rfl
          have hnone2 : iterVec (c + 1 + 1) P = none := by
            rw [iterVec_split (c + 1) 1, hq]
            show iterVec 1 q = none
            exact iterVec_succ_none hnvn 0
          have hdeadg : stepIter (j + 1 + c * n + (n - 1) + 1) (eraseP g0) =
              none := by
            rw [stepIter_split (j + 1 + c * n + (n - 1)) 1, hglob, hsk]
            show stepIter 1 h = none
            exact stepIter_succ_none hsh 0
          constructor
          · intro q' hq'
            rw [hnone2] at hq'
            exact absurd hq' (by simp)
          · intro _
            have hidx : j + 1 + (c + 1) * n = j + 1 + c * n + (n - 1) + 1 := by
              rw [Nat.succ_mul]
              omega
            rw [hidx]
            exact hdeadg
        · have hnvs : q.next_vec = some
              (toDigitsWith r.2.alphabet q.alphabet.length r.2.length
                ((r.1 + r.2.offset) % r.2.lcm.m),
                { r.2 with skip := some (n - 1), skip_before_next := true },
                List.replicate (n - 1) "h0") := by
            rw [hnv, hsk]
            show (h.step).map _ = _
            rw [hsh]
            rfl
          have hit2 : iterVec (c + 1 + 1) P = some
              ({ r.2 with skip := some (n - 1), skip_before_next := true } :
                ShortCodeGenerator T) := by
            rw [iterVec_split (c + 1) 1, hq]
            show iterVec 1 q = _
            rw [iterVec_succ_some hnvs 0]
            rfl
          have hstep2 : stepIter (j + 1 + (c + 1) * n) (eraseP g0) =
              some r.2 := by
            have hidx : j + 1 + (c + 1) * n = j + 1 + c * n + (n - 1) + 1 := by
              rw [Nat.succ_mul]
              omega
            rw [hidx, stepIter_split (j + 1 + c * n + (n - 1)) 1, hglob, hsk]
            show stepIter 1 h = some r.2
            rw [stepIter_succ_some hsh 0]
            rfl
          have her : eraseP
              ({ r.2 with skip := some (n - 1), skip_before_next := true } :
                ShortCodeGenerator T) = r.2 := by
            show ({ r.2 with skip := none, skip_before_next := false } :
              ShortCodeGenerator T) = r.2
            have hsh' : (eraseP h).step = some r := by
              rw [hhe]
              exact hsh
            exact step_eraseP_erased hsh'
          constructor
          · intro q' hq'
            rw [hit2] at hq'
            have hqe := Option.some.inj hq'
            subst hqe
            refine ⟨rfl, rfl, ?_⟩
            rw [hstep2, her]
          · intro hq'
            rw [hit2] at hq'
            exact absurd hq' (by simp)

/-- Output correspondence for a partition: its `c`-th output is element
`c * n + j` of the original partition-free stream. -/
theorem part_vecOutAt [Inhabited T] {g0 P : ShortCodeGenerator T} {n j : Nat}
    (hn : 1 ≤ n)
    (hPj : stepIter j (eraseP g0) = some (eraseP P))
    (hPskip : P.skip = some (n - 1)) (hPsbn : P.skip_before_next = false) :
    ∀ c, vecOutAt P c = coreVec g0 (c * n + j) := by
  intro c
  cases c with
  | zero =>
    unfold vecOutAt coreVec
    have hidx : 0 * n + j = j := by omega
    rw [hidx, hPj]
    show (P.next_vec).map (fun r => r.1) =
      ((eraseP P).step).map (fun r =>
        toDigitsWith r.2.alphabet (eraseP P).alphabet.length r.2.length
          ((r.1 + r.2.offset) % r.2.lcm.m))
    rw [next_vec_sbn_false_core hPsbn]
    rcases hs1 : (eraseP P).step with _ | r
    · rfl
    · rfl
  | succ c =>
    obtain ⟨ihm, ihn⟩ := part_aux hn hPj hPskip hPsbn c
    unfold vecOutAt coreVec
    rcases hq : iterVec (c + 1) P with _ | q
    · have hdead := ihn hq
      have hz : stepIter ((c + 1) * n + j) (eraseP g0) = none := by
        refine stepIter_none_mono hdead ?_
        rw [Nat.succ_mul]
        omega
      rw [hz]
      rfl
    · obtain ⟨hqs, hqb, hqp⟩ := ihm q hq
      have hidx : (c + 1) * n + j = j + 1 + c * n + (n - 1) := by
        rw [Nat.succ_mul]
        omega
      rw [hidx, stepIter_split (j + 1 + c * n) (n - 1), hqp]
      show (q.next_vec).map (fun r => r.1) =
        (stepIter (n - 1) (eraseP q)).bind (fun h =>
          (h.step).map (fun r =>
            toDigitsWith r.2.alphabet h.alphabet.length r.2.length
              ((r.1 + r.2.offset) % r.2.lcm.m)))
      rw [next_vec_skip_core hqs hqb]
      rcases hsk : stepIter (n - 1) (eraseP q) with _ | h
      · rfl
      · have halph : h.alphabet = q.alphabet :=
          stepIter_alphabet (n - 1) (eraseP q) h hsk
        show ((h.step).map (fun r =>
            (toDigitsWith r.2.alphabet q.alphabet.length r.2.length
              ((r.1 + r.2.offset) % r.2.lcm.m),
              ({ r.2 with skip := some (n - 1), skip_before_next := true } :
                ShortCodeGenerator T),
              List.replicate (n - 1) "h0"))).map (fun r => r.1) =
          (h.step).map (fun r =>
            toDigitsWith r.2.alphabet h.alphabet.length r.2.length
              ((r.1 + r.2.offset) % r.2.lcm.m))
        rw [halph]
        rcases hsh : h.step with _ | r
        · rfl
        · rfl

/-- `into_parallel_generators` advances each clone with `next_int`; this
visits the same states as advancing with `next_vec`. -/
theorem advanceBy_eq_iterVec [Inhabited T] :
    ∀ (k : Nat) (g : ShortCodeGenerator T), advanceBy k g = iterVec k g := by
  intro k
  induction k with
  | zero =>
    intro g
    rfl
  | succ k ih =>
    intro g
    rcases hint : g.next_int with _ | r
    · have hv : g.next_vec = none := next_vec_none_of_int_none hint
      rw [iterVec_succ_none hv k]
      simp only [advanceBy, hint]
    · obtain ⟨v, g', out⟩ := r
      have hv := next_vec_of_int hint
      rw [iterVec_succ_some hv k]
      simp only [advanceBy, hint]
      exact ih g'

/-- Extracting the pointwise content of a successful `Option`-valued `mapM`. -/
theorem mapM_option_getD {α β : Type} (f : α → Option β) (d : α) (e : β) :
    ∀ (l : List α) (out : List β), l.mapM f = some out →
      out.length = l.length ∧
      ∀ i (h : i < l.length), f (l.get ⟨i, h⟩) = some (out.getD i e) := by
  intro l
  induction l with
  | nil =>
    intro out h
    rw [List.mapM_nil] at h
    have hout : ([] : List β) = out := Option.some.inj h
    subst hout
    exact ⟨rfl, fun i hi => absurd hi (by simp)⟩
  | cons a l ih =>
    intro out h
    rw [List.mapM_cons] at h
    rcases hfa : f a with _ | b
    · rw [hfa] at h
      simp at h
    · rw [hfa] at h
      rcases hml : l.mapM f with _ | bs
      · rw [hml] at h
        simp at h
      · rw [hml] at h
        simp at h
        subst h
        obtain ⟨hlen, hget⟩ := ih bs hml
        refine ⟨by simp [hlen], ?_⟩
        intro i hi
        cases i with
        | zero =>
          simpa using hfa
        | succ i =>
          have hi' : i < l.length := by simpa using hi
          simpa using hget i hi'

end ShortCodeGenerator

open ShortCodeGenerator in
/-- C2: for every `n ≥ 1` and every un-partitioned generator, splitting into
`n` parallel generators and calling them round-robin in index order starting
at index 0 reproduces value-for-value the sequence of the original generator:
round `t` of the round-robin (call `t / n` on partition `t % n`) returns
exactly what the original's call `t` would return. -/
theorem c2_partition_round_robin {T : Type} [Inhabited T]
    (g0 : ShortCodeGenerator T) (n : Nat) (parts : List (ShortCodeGenerator T))
    (hn : 1 ≤ n) (hskip : g0.skip = none)
    (hp : g0.into_parallel_generators n = some parts) :
    parts.length = n ∧
    ∀ t, vecOutAt (parts.getD (t % n) g0) (t / n) = vecOutAt g0 t := by
  unfold ShortCodeGenerator.into_parallel_generators at hp
  obtain ⟨hlen, hget⟩ := mapM_option_getD _ 0 g0 (List.range n) parts hp
  have hlen' : parts.length = n := by simpa using hlen
  refine ⟨hlen', ?_⟩
  intro t
  have htn : t % n < n := Nat.mod_lt t (by omega)
  have hlt : t % n < (List.range n).length := by
    rw [List.length_range]
    exact htn
  have hfv := hget (t % n) hlt
  rw [List.get_range] at hfv
  have hfv' : (if g0.skip.isSome then none
      else (advanceBy (t % n) g0).map (fun g1 =>
        { g1 with skip_before_next := false, skip := some (n - 1) })) =
      some (parts.getD (t % n) g0) := hfv
  have hcond : g0.skip.isSome = false := by
    rw [hskip]
    rfl
  rw [if_neg (by rw [hcond]; exact Bool.false_ne_true),
    advanceBy_eq_iterVec] at hfv'
  rcases hA : iterVec (t % n) g0 with _ | A
  · rw [hA] at hfv'
    exact Option.noConfusion hfv'
  · rw [hA] at hfv'
    have hPeq := Option.some.inj hfv'
    rw [← hPeq]
    obtain ⟨hm, hs⟩ := orig_run hskip (t % n)
    have hstA : stepIter (t % n) (eraseP g0) = some (eraseP A) := by
      rw [← hm, hA]
      rfl
    have hAskip : A.skip = none := hs A hA
    have hPj : stepIter (t % n) (eraseP g0) = some
        (eraseP ({ A with skip_before_next := false, skip := some (n - 1) } :
          ShortCodeGenerator T)) := by
      rw [hstA]
      rfl
    have hout := part_vecOutAt hn hPj rfl rfl (t / n)
    rw [hout]
    have hdm : t / n * n + t % n = t := by
      rw [Nat.mul_comm]
      exact Nat.div_add_mod t n
    rw [hdm]
    exact (orig_vecOutAt hskip t).symm

open ShortCodeGenerator in
/-- Witness for C2: a binary-alphabet length-1 generator split into two
partitions; every hypothesis is discharged at the concrete input. -/
theorem c2_partition_round_robin_witness :
    1 ≤ 2 ∧
    (⟨⟨0, 0, 2, 1, 3, false⟩, 0, [0, 1], 1, ExhaustionStrategy.Cycle, none,
      none, false⟩ : ShortCodeGenerator Nat).skip = none ∧
    (⟨⟨0, 0, 2, 1, 3, false⟩, 0, [0, 1], 1, ExhaustionStrategy.Cycle, none,
      none, false⟩ : ShortCodeGenerator Nat).into_parallel_generators 2 =
      some (((⟨⟨0, 0, 2, 1, 3, false⟩, 0, [0, 1], 1, ExhaustionStrategy.Cycle,
        none, none, false⟩ :
          ShortCodeGenerator Nat).into_parallel_generators 2).getD []) ∧
    ((((⟨⟨0, 0, 2, 1, 3, false⟩, 0, [0, 1], 1, ExhaustionStrategy.Cycle, none,
        none, false⟩ :
          ShortCodeGenerator Nat).into_parallel_generators 2).getD []).length
        = 2 ∧
      ∀ t, vecOutAt
        ((((⟨⟨0, 0, 2, 1, 3, false⟩, 0, [0, 1], 1, ExhaustionStrategy.Cycle,
          none, none, false⟩ :
            ShortCodeGenerator Nat).into_parallel_generators 2).getD
              []).getD (t % 2)
          (⟨⟨0, 0, 2, 1, 3, false⟩, 0, [0, 1], 1, ExhaustionStrategy.Cycle,
            none, none, false⟩ : ShortCodeGenerator Nat)) (t / 2) =
        vecOutAt (⟨⟨0, 0, 2, 1, 3, false⟩, 0, [0, 1], 1,
          ExhaustionStrategy.Cycle, none, none, false⟩ :
            ShortCodeGenerator Nat) t) :=
  ⟨by decide, rfl, rfl,
    c2_partition_round_robin
      (⟨⟨0, 0, 2, 1, 3, false⟩, 0, [0, 1], 1, ExhaustionStrategy.Cycle, none,
        none, false⟩ : ShortCodeGenerator Nat) 2
      (((⟨⟨0, 0, 2, 1, 3, false⟩, 0, [0, 1], 1, ExhaustionStrategy.Cycle, none,
        none, false⟩ :
          ShortCodeGenerator Nat).into_parallel_generators 2).getD [])
      (by decide) rfl rfl⟩

end TinyId
